import Mathlib

/-!
Verification of the `rust-nscoder` keyed-archiving engine.

The development shallowly embeds the crate's source:
* `src/types.rs`   → `ArchiveDict`, `Error`
* `src/object.rs`  → `ClassChain`/`get_classes` (the `Archive` trait's class
  metadata), `RegChain`/`register_type` (the `TypeRegistry`)
* `src/archiver.rs`→ `Archiver` (encode engine), `UnState` plus the decode
  functions (`Unarchiver`), and the `Encoder`/`Decoder` trait methods.

Machine integers are modelled as `Int` with explicit reduction modulo `2^32`
(`toI32`) and `2^64` (`toI64`); Rust panics (`expect` / `panic!`) are
modelled as `Option.none` results; `plist::Value` is the inductive
`PlistValue`; `plist::Dictionary` (an order-preserving map) is an
association list with replace-in-place insertion.
-/

namespace NSCoder

/-- Reduction of an unbounded integer to the value of the `i32` with the same
low 32 bits (two's complement), i.e. Rust's `as i32` cast. -/
def toI32 (n : Int) : Int := (n + 2 ^ 31) % 2 ^ 32 - 2 ^ 31

/-- Reduction of an unbounded integer to the value of the `i64` with the same
low 64 bits (two's complement), i.e. Rust's `as i64` cast. -/
def toI64 (n : Int) : Int := (n + 2 ^ 63) % 2 ^ 64 - 2 ^ 63

/-- `plist::Value`, restricted to the node kinds the engine produces or
inspects (a dictionary is an ordered association list, like
`plist::Dictionary`).  `boolean` stands in for the remaining scalar kinds
(real, date, data, …) that the engine treats uniformly as "wrong kind". -/
inductive PlistValue where
  | string (s : String)
  | integer (n : Int)
  | boolean (b : Bool)
  | uid (j : Nat)
  | array (xs : List PlistValue)
  | dictionary (entries : List (String × PlistValue))

/-- `plist::Dictionary`: ordered key/value list. -/
abbrev PDict := List (String × PlistValue)

/-- First-match association-list lookup (`Dictionary::get` / `HashMap::get`). -/
def assocGet {α : Type} : List (String × α) → String → Option α
  | [], _ => none
  | (k', v) :: rest, k => if k' = k then some v else assocGet rest k

/-- `plist::Dictionary::get`. -/
def dictGet (d : PDict) (k : String) : Option PlistValue := assocGet d k

/-- `plist::Dictionary::insert`: replaces the value in place when the key is
present, appends otherwise. -/
def dictInsert : PDict → String → PlistValue → PDict
  | [], k, v => [(k, v)]
  | (k', v') :: rest, k, v =>
    if k' = k then (k, v) :: rest else (k', v') :: dictInsert rest k v

/-- `Value::as_dictionary`. -/
def asDictionary : PlistValue → Option PDict
  | .dictionary d => some d
  | _ => none

/-- `Value::as_string`. -/
def asString : PlistValue → Option String
  | .string s => some s
  | _ => none

/-- `Value::as_uid` followed by `Uid::get` (a `u64`, modelled as `Nat`). -/
def asUid : PlistValue → Option Nat
  | .uid j => some j
  | _ => none

/-- `Value::as_signed_integer`: the stored integer when it fits an `i64`. -/
def asSignedInteger : PlistValue → Option Int
  | .integer n => if -2 ^ 63 ≤ n ∧ n < 2 ^ 63 then some n else none
  | _ => none

/-- `ArchiveDict` from `src/types.rs`: the archive envelope
(`$archiver` / `$objects` / `$top` / `$version`). -/
structure ArchiveDict where
  archiver_class_name : String
  objects : List PlistValue
  top_objects : List (String × Nat)
  version : Nat

/-- `Error` from `src/types.rs`. -/
inductive Error where
  | MalformedData
  | UnsupportedArchiver (name : String)
  | NoRootObject
  | MalformedObject
  | UnknownClass (name : String)
deriving DecidableEq

/-- `KEYED_ARCHIVER_CLASS_NAME` from `src/archiver.rs`. -/
def keyedArchiverClassName : String := "NSKeyedArchiver"

/-- The static class metadata of an `Archive` implementation: its class name
and its `Super` chain.  `root n` models a type with
`is_root_class = true` (the `RootObject` sentinel, whose `Super` is itself);
`derived n s` models a type with class name `n` and `Super` metadata `s`. -/
inductive ClassChain where
  | root (name : String)
  | derived (name : String) (sup : ClassChain)
deriving DecidableEq

/-- `T::class_name()`. -/
def chainHead : ClassChain → String
  | .root n => n
  | .derived n _ => n

/-- `get_classes::<T>()` from `src/object.rs`: the ancestor chain,
most-derived name first.  The Rust code builds
`if !T::is_root_class { get_classes::<T::Super>() } else { vec![] }` and then
inserts `T::class_name()` at index 0. -/
def get_classes : ClassChain → List String
  | .root n => [n]
  | .derived n s => n :: get_classes s

/- Description of an archivable value: what its `Archive::encode`
implementation does, observed through the `Encoder` interface.  A `Field` is
one `encode_*` call; a `FieldList` is the call sequence; an `ObjDesc` pairs
the call sequence with the type's class metadata.  The `Int` carried by
`fi32` (resp. `fi64`) models the `i32` (resp. `i64`) argument, interpreted
through `toI32` (resp. `toI64`). -/
mutual
inductive Field where
  | fi32 (v : Int)
  | fi64 (v : Int)
  | fstr (s : String)
  | fobj (o : ObjDesc)

inductive ObjDesc where
  | mk (classes : ClassChain) (fields : FieldList)

inductive FieldList where
  | nil
  | fcons (key : String) (f : Field) (rest : FieldList)
end

/-- The class metadata component of an `ObjDesc`. -/
def ObjDesc.classesOf : ObjDesc → ClassChain
  | .mk c _ => c

/-- The field-call sequence of an `ObjDesc`. -/
def ObjDesc.fieldsOf : ObjDesc → FieldList
  | .mk _ fs => fs

/-! ## The encode engine (`Archiver` in `src/archiver.rs`) -/
/-- The `Archiver` struct: the growing object table and the active-slot
cursor. -/
structure Archiver where
  objects : List PlistValue
  active_object_index : Option Nat

/-- `Archiver::new()`: a table holding only the `"$null"` sentinel, no
active slot. -/
def Archiver.new : Archiver :=
  { objects := [.string "$null"], active_object_index := none }

/-- `Archiver::ensure_active_object` followed by a mutation of the returned
dictionary.  `none` models the panics (`expect an active object index`,
`internal state inconsistent`, `expected a dictionary`). -/
def ensureActiveModify (a : Archiver) (f : PDict → PDict) : Option Archiver :=
  match a.active_object_index with
  | none => none
  | some idx =>
    match a.objects[idx]? with
    | some (.dictionary d) =>
      some { a with objects := a.objects.set idx (.dictionary (f d)) }
    | _ => none

/-- `Encoder::encode_i64` for `Archiver`: insert an inline integer under
`key` in the active slot. -/
def Archiver.encode_i64 (a : Archiver) (value : Int) (key : String) : Option Archiver :=
  ensureActiveModify a (fun d => dictInsert d key (.integer value))

/-- `Encoder::encode_i32` for `Archiver`: delegates to `encode_i64`
(`value as i64` is value-preserving on `i32`). -/
def Archiver.encode_i32 (a : Archiver) (value : Int) (key : String) : Option Archiver :=
  a.encode_i64 value key

/-- `Encoder::encode_string` for `Archiver`: push a fresh string slot, then
insert a reference to it under `key` in the active slot. -/
def Archiver.encode_string (a : Archiver) (value key : String) : Option Archiver :=
  let objects1 := a.objects ++ [.string value]
  let index := objects1.length - 1
  ensureActiveModify { a with objects := objects1 }
    (fun d => dictInsert d key (.uid index))

/- `Archiver::encode_new_object` / `Encoder::encode_object`, driven by an
`ObjDesc` standing for the closure `encode_f` (the value's
`Archive::encode` body followed by `get_classes`).  `encodeNewObject`
mirrors the source step by step: push an empty dictionary record, save and
set the active cursor (`with_active_object`), run the field encodes, emit
the class-info record, link it from `$class`, restore the cursor, and
return the new record's index. -/
mutual
def encodeNewObject (a : Archiver) (o : ObjDesc) : Option (Archiver × Nat) :=
  match o with
  | .mk chain fs =>
    let objects1 := a.objects ++ [.dictionary []]
    let newIdx := objects1.length - 1
    let saved := a.active_object_index
    match encodeFields { objects := objects1, active_object_index := some newIdx } fs with
    | none => none
    | some a2 =>
      let classes := get_classes chain
      match classes.head? with
      | none => none
      | some cls =>
        let classInfo :=
          dictInsert (dictInsert [] "$classes" (.array (classes.map PlistValue.string)))
            "$classname" (.string cls)
        let a3 : Archiver :=
          { objects := a2.objects ++ [.dictionary classInfo],
            active_object_index := a2.active_object_index }
        let classInfoIdx := a3.objects.length - 1
        match ensureActiveModify a3 (fun d => dictInsert d "$class" (.uid classInfoIdx)) with
        | none => none
        | some a4 =>
          some ({ objects := a4.objects, active_object_index := saved }, newIdx)

def encodeFields (a : Archiver) (fs : FieldList) : Option Archiver :=
  match fs with
  | .nil => some a
  | .fcons key f rest =>
    match encodeField a key f with
    | none => none
    | some a1 => encodeFields a1 rest

def encodeField (a : Archiver) (key : String) (f : Field) : Option Archiver :=
  match f with
  | .fi32 v => a.encode_i32 (toI32 v) key
  | .fi64 v => a.encode_i64 (toI64 v) key
  | .fstr s => a.encode_string s key
  | .fobj o =>
    match encodeNewObject a o with
    | none => none
    | some (a1, idx) => ensureActiveModify a1 (fun d => dictInsert d key (.uid idx))
end

/-- `Archiver::seal`: the envelope with the fixed archiver identifier, the
accumulated table, `{"root": root_object}` and version `100000`. -/
def Archiver.seal (a : Archiver) (root_object : Nat) : ArchiveDict :=
  { archiver_class_name := keyedArchiverClassName,
    objects := a.objects,
    top_objects := [("root", root_object)],
    version := 100000 }

/-- `to_archive_dict` from `src/archiver.rs`: encode the root value on a
fresh archiver and seal. -/
def to_archive_dict (o : ObjDesc) : Option ArchiveDict :=
  match encodeNewObject Archiver.new o with
  | none => none
  | some (a, root_object) => some (a.seal root_object)

/-! ## Functional layout of a successful encode

The stateful engine above is deterministic; the following functions compute
the exact slots it appends and the exact record dictionary it builds, which
the bridge theorem `encodeNewObject_eq` proves. -/
/-- The inline value (or reference) that the field's `encode_*` call stores
under its key, when the next free table index is `next`. -/
def fieldVal (next : Nat) : Field → PlistValue
  | .fi32 v => .integer (toI32 v)
  | .fi64 v => .integer (toI64 v)
  | .fstr _ => .uid next
  | .fobj _ => .uid next

/-- The class-info record emitted for a chain:
`{$classes: [names...], $classname: head}`. -/
def classInfoDict (chain : ClassChain) : PDict :=
  dictInsert (dictInsert [] "$classes" (.array ((get_classes chain).map PlistValue.string)))
    "$classname" (.string (chainHead chain))

mutual
/-- Slots appended by one field encode starting at free index `next`. -/
def fieldSlots (next : Nat) : Field → List PlistValue
  | .fi32 _ => []
  | .fi64 _ => []
  | .fstr s => [.string s]
  | .fobj o => encObjL next o

/-- Slots appended by a field sequence starting at free index `next`. -/
def encFieldsSlots (next : Nat) : FieldList → List PlistValue
  | .nil => []
  | .fcons _ f rest =>
    fieldSlots next f ++ encFieldsSlots (next + (fieldSlots next f).length) rest

/-- The record dictionary after a field sequence, extending `D`. -/
def encFieldsDict (next : Nat) (D : PDict) : FieldList → PDict
  | .nil => D
  | .fcons k f rest =>
    encFieldsDict (next + (fieldSlots next f).length) (dictInsert D k (fieldVal next f)) rest

/-- All slots of one encoded object placed at index `base`: its record,
its field slots, and its class-info record. -/
def encObjL (base : Nat) : ObjDesc → List PlistValue
  | .mk chain fs =>
    .dictionary
        (dictInsert (encFieldsDict (base + 1) [] fs) "$class"
          (.uid (base + 1 + (encFieldsSlots (base + 1) fs).length)))
      :: (encFieldsSlots (base + 1) fs ++ [.dictionary (classInfoDict chain)])
end

/-! ## The decode engine (`Unarchiver` in `src/archiver.rs`)

The `Unarchiver` borrows the envelope and the type registry and owns one
mutable active-slot cursor (`Cell<Option<PlistUid>>`).  The decode methods
only ever read the object table and the cursor, so the state is the pair
below; the registry is passed as an explicit parameter.  A registered
reconstruction function (`UnarchiveFn`, i.e.
`fn(&dyn Decoder) -> Option<AnyObject>`) is modelled as an arbitrary
function from the decoder state to an optional object of an abstract result
type `ω` (standing for `AnyObject`).  `none` results of the engine functions
model the `ensure_active_object` panics; `some` wraps the Rust return
value. -/
/-- The decoder state visible through `&dyn Decoder`: the object table and
the active-slot cursor. -/
structure UnState where
  objects : List PlistValue
  active_object : Option Nat

/-- `UnarchiveFn`: a registered reconstruction function. -/
abbrev UnFn (ω : Type) := UnState → Option ω

/-- `Unarchiver::ensure_active_object`: `none` models both panics (no active
object, index out of bounds). -/
def ensureActiveObject (u : UnState) : Option PlistValue :=
  match u.active_object with
  | none => none
  | some uid => u.objects[uid]?

/-- `Decoder::decode_i64` for `Unarchiver`. -/
def decode_i64 (u : UnState) (key : String) : Option Int :=
  match ensureActiveObject u with
  | none => none
  | some v =>
    match v with
    | .dictionary d => some (((dictGet d key).bind asSignedInteger).getD 0)
    | _ => some 0

/-- `Decoder::decode_i32` for `Unarchiver`: `self.decode_i64(key) as i32`. -/
def decode_i32 (u : UnState) (key : String) : Option Int :=
  (decode_i64 u key).map toI32

/-- `Decoder::decode_string` for `Unarchiver`. -/
def decode_string (u : UnState) (key : String) : Option (Option String) :=
  match ensureActiveObject u with
  | none => none
  | some v =>
    match v with
    | .dictionary d =>
      match (dictGet d key).bind asUid with
      | none => some none
      | some index =>
        if u.objects.length ≤ index then some none
        else some ((u.objects[index]?).bind asString)
    | _ => some none

/-- `Unarchiver::decode_active_object`: validate that the active slot is a
dictionary whose `$class` reference leads to a class-info dictionary with a
`$classname` string; look the name up in the registry; run the
reconstruction function. -/
def decode_active_object {ω : Type} (reg : List (String × UnFn ω)) (u : UnState) :
    Option (Except Error ω) :=
  match ensureActiveObject u with
  | none => none
  | some v =>
    match v with
    | .dictionary d =>
      match (dictGet d "$class").bind asUid with
      | none => some (.error .MalformedObject)
      | some class_index =>
        if u.objects.length ≤ class_index then some (.error .MalformedObject)
        else
          match (u.objects[class_index]?).bind
              (fun cv => (asDictionary cv).bind
                (fun cd => (dictGet cd "$classname").bind asString)) with
          | none => some (.error .MalformedObject)
          | some class_name =>
            match assocGet reg class_name with
            | none => some (.error (.UnknownClass class_name))
            | some unarchive_fn =>
              match unarchive_fn u with
              | some object => some (.ok object)
              | none => some (.error .MalformedObject)
    | _ => some (.error .MalformedObject)

/-- `Unarchiver::unarchive_root_object`: validate the archiver identifier,
find `"root"` in the top mapping, bounds-check it, set it active and decode. -/
def unarchive_root_object {ω : Type} (reg : List (String × UnFn ω)) (d : ArchiveDict) :
    Option (Except Error ω) :=
  if d.archiver_class_name ≠ keyedArchiverClassName then
    some (.error (.UnsupportedArchiver d.archiver_class_name))
  else
    match assocGet d.top_objects "root" with
    | none => some (.error .NoRootObject)
    | some root_object =>
      if d.objects.length ≤ root_object then some (.error .MalformedObject)
      else decode_active_object reg { objects := d.objects, active_object := some root_object }

/-- `Decoder::decode_object` for `Unarchiver`, with the cursor mutation made
explicit: resolve the key to a reference, bounds-check it, save the cursor,
descend via `decode_active_object`, restore the cursor, and collapse a
structured error into `none` (`.ok()`).  Returns the final state together
with the Rust return value. -/
def decode_object {ω : Type} (reg : List (String × UnFn ω)) (u : UnState) (key : String) :
    Option (UnState × Option ω) :=
  match ensureActiveObject u with
  | none => none
  | some v =>
    match v with
    | .dictionary d =>
      match (dictGet d key).bind asUid with
      | none => some (u, none)
      | some object =>
        if u.objects.length ≤ object then some (u, none)
        else
          let last_object := u.active_object
          match decode_active_object reg { objects := u.objects, active_object := some object } with
          | none => none
          | some decoded_object =>
            some ({ objects := u.objects, active_object := last_object },
              decoded_object.toOption)
    | _ => some (u, none)

/-! ## The type registry (`TypeRegistry` in `src/object.rs`) -/
/-- A registrable type `T`, as `TypeRegistry::register_type::<T>` sees it:
its class name, its reconstruction function (`typed_unarchive::<T>`,
abstracted as a value of `α`), and its `Super` chain; `root` marks
`is_root_class = true`. -/
inductive RegChain (α : Type) where
  | root (name : String) (f : α)
  | derived (name : String) (f : α) (sup : RegChain α)

/-- The type's own class name (`T::class_name()`). -/
def regHead {α : Type} : RegChain α → String
  | .root n _ => n
  | .derived n _ _ => n

/-- The type's own reconstruction function. -/
def regFn {α : Type} : RegChain α → α
  | .root _ f => f
  | .derived _ f _ => f

/-- All class names along the chain, most-derived first. -/
def regNames {α : Type} : RegChain α → List String
  | .root n _ => [n]
  | .derived n _ sup => n :: regNames sup

/-- `HashMap::entry(name)`: insert only when vacant (`Occupied => ()`). -/
def insertIfAbsent {α : Type} (reg : List (String × α)) (n : String) (f : α) :
    List (String × α) :=
  match assocGet reg n with
  | some _ => reg
  | none => reg ++ [(n, f)]

/-- `TypeRegistry::register_type::<T>`: first recursively register the
`Super` chain (unless `T` is the root class), then insert `T`'s own entry if
vacant. -/
def register_type {α : Type} (reg : List (String × α)) : RegChain α → List (String × α)
  | .root n f => insertIfAbsent reg n f
  | .derived n f sup => insertIfAbsent (register_type reg sup) n f

/-! ## Archivable class definitions and their canonical reconstruction

A family of archivable Rust types is modelled as a list of class
definitions: each class has its chain metadata and a fixed sequence of
field keys and kinds (`FShape`), mirroring an `Archive` implementation
whose `decode` reads back exactly the keys its `encode` writes (like the
`Person` example in `src/object.rs`).  The canonical reconstruction
function of a class (`canonFn`, modelling `typed_unarchive::<T>`) reads
every field through the `Decoder` interface only; in particular a
nested-object field goes through the real `decode_object`, and hence
through the registry dispatch of `decode_active_object`, as any
reconstruction function confined to `&dyn Decoder` must.  In the program
each reconstruction function reaches the registry through the unarchiver
it is handed, making the registry self-referential; here that fixpoint is
unrolled by fuel: `canonFn env (n+1)` consults the registry of fuel-`n`
functions, so any fuel exceeding the nesting depth of the decoded value
reproduces the program behavior. -/

/-- The kind of one encoded field of a class: inline `i32`, inline `i64`,
string reference, or nested object of the named class (the name is the
concrete type the decoder downcasts the nested handle to). -/
inductive FShape where
  | si32
  | si64
  | sstr
  | sobj (className : String)

/-- One archivable class: its chain metadata and its fixed field layout. -/
structure ClassDef where
  chain : ClassChain
  fields : List (String × FShape)

/-- First class definition carrying the given class name. -/
def lookupEnv : List ClassDef → String → Option ClassDef
  | [], _ => none
  | cd :: rest, n => if chainHead cd.chain = n then some cd else lookupEnv rest n

/-- Decode one field of the given kind through the `Decoder` interface.
Nested objects go through `decode_object` (and so through the registry);
the produced handle must then downcast to the expected class. -/
def buildField (reg : List (String × UnFn ObjDesc)) (u : UnState) (key : String) :
    FShape → Option Field
  | .si32 => (decode_i32 u key).map .fi32
  | .si64 => (decode_i64 u key).map .fi64
  | .sstr => (decode_string u key).bind (fun os => os.map .fstr)
  | .sobj c =>
    (decode_object reg u key).bind (fun p =>
      p.2.bind (fun w => if chainHead w.classesOf = c then some (.fobj w) else none))

/-- Decode the whole field layout of a class, failing if any field fails. -/
def buildFields (reg : List (String × UnFn ObjDesc)) (u : UnState) :
    List (String × FShape) → Option FieldList
  | [] => some .nil
  | (k, sh) :: rest =>
    (buildField reg u k sh).bind (fun f =>
      (buildFields reg u rest).map (fun fl => .fcons k f fl))

/-- The canonical reconstruction function of a class
(`typed_unarchive::<T>` for a type whose `decode` mirrors its `encode`),
with the registry fixpoint unrolled by fuel. -/
def canonFn (env : List ClassDef) : Nat → ClassDef → UnFn ObjDesc
  | 0, _, _ => none
  | n + 1, cd, u =>
    (buildFields (env.map (fun cd2 => (chainHead cd2.chain, canonFn env n cd2))) u
      cd.fields).map (fun fs => .mk cd.chain fs)

/-- The canonical registry of a class family at a given fuel: every class
of the family registered under its own name. -/
def canonReg (env : List ClassDef) (n : Nat) : List (String × UnFn ObjDesc) :=
  env.map (fun cd => (chainHead cd.chain, canonFn env n cd))

/- A value conforms to a class family when each of its objects (the root
and every nested one) is an instance of the definition registered for its
class name: same chain, and fields matching the class layout key for key. -/
mutual
def conformsField (env : List ClassDef) : FShape → Field → Bool
  | .si32, .fi32 _ => true
  | .si64, .fi64 _ => true
  | .sstr, .fstr _ => true
  | .sobj c, .fobj w => decide (chainHead w.classesOf = c) && conformsObj env w
  | _, _ => false

def conformsFields (env : List ClassDef) : List (String × FShape) → FieldList → Bool
  | [], .nil => true
  | (k, sh) :: srest, .fcons k2 f frest =>
    decide (k = k2) && conformsField env sh f && conformsFields env srest frest
  | _, _ => false

def conformsObj (env : List ClassDef) : ObjDesc → Bool
  | .mk chain fs =>
    match lookupEnv env (chainHead chain) with
    | some cd => decide (cd.chain = chain) && conformsFields env cd.fields fs
    | none => false
end

/- Machine-integer representability of a description: each `fi32` carries
the value of an `i32` and each `fi64` the value of an `i64`, recursively. -/
mutual
def intsField : Field → Bool
  | .fi32 v => decide (-2 ^ 31 ≤ v ∧ v < 2 ^ 31)
  | .fi64 v => decide (-2 ^ 63 ≤ v ∧ v < 2 ^ 63)
  | .fstr _ => true
  | .fobj w => intsObj w

def intsFields : FieldList → Bool
  | .nil => true
  | .fcons _ f rest => intsField f && intsFields rest

def intsObj : ObjDesc → Bool
  | .mk _ fs => intsFields fs
end

/- Nesting depth of a description: how many `decode_object` descents its
canonical decode performs at most. -/
mutual
def depthField : Field → Nat
  | .fobj w => 1 + depthObj w
  | _ => 0

def depthFields : FieldList → Nat
  | .nil => 0
  | .fcons _ f rest => max (depthField f) (depthFields rest)

def depthObj : ObjDesc → Nat
  | .mk _ fs => depthFields fs
end

/-- The keys of a field sequence, in call order. -/
def keysOf : FieldList → List String
  | .nil => []
  | .fcons k _ rest => k :: keysOf rest

/- Well-behaved encoders: within each object the keys are pairwise distinct
and none of them is the reserved key `"$class"`. -/
mutual
def goodField : Field → Bool
  | .fobj o => goodObj o
  | _ => true

def goodFields : FieldList → Bool
  | .nil => true
  | .fcons _ f rest => goodField f && goodFields rest

def goodObj : ObjDesc → Bool
  | .mk _ fs => decide ((keysOf fs).Nodup) && decide ("$class" ∉ keysOf fs) && goodFields fs
end

/-- The final record dictionary `Dp` agrees, on each key of `fs`, with the
value stored by the corresponding field encode (fields laid out from free
index `next`). -/
def matchFields (Dp : PDict) : Nat → FieldList → Prop
  | _, .nil => True
  | next, .fcons k f rest =>
    dictGet Dp k = some (fieldVal next f) ∧
      matchFields Dp (next + (fieldSlots next f).length) rest

/-- `seg` is embedded in the table `T` starting at index `start`. -/
def segAt (T : List PlistValue) (start : Nat) (seg : List PlistValue) : Prop :=
  ∀ i, i < seg.length → T[start + i]? = seg[i]?

/-- Every `uid` reference occurring anywhere inside the value is `< n`. -/
inductive UidsBounded (n : Nat) : PlistValue → Prop where
  | string (s : String) : UidsBounded n (.string s)
  | integer (i : Int) : UidsBounded n (.integer i)
  | boolean (b : Bool) : UidsBounded n (.boolean b)
  | uid (j : Nat) : j < n → UidsBounded n (.uid j)
  | array (xs : List PlistValue) : (∀ x ∈ xs, UidsBounded n x) → UidsBounded n (.array xs)
  | dictionary (d : List (String × PlistValue)) :
      (∀ kv ∈ d, UidsBounded n kv.2) → UidsBounded n (.dictionary d)

/- Structural counts of a description: number of (transitively) encoded
application objects and of encoded string fields. -/
mutual
def fieldObjs : Field → Nat
  | .fobj o => numObjs o
  | _ => 0

def fieldsObjs : FieldList → Nat
  | .nil => 0
  | .fcons _ f rest => fieldObjs f + fieldsObjs rest

def numObjs : ObjDesc → Nat
  | .mk _ fs => 1 + fieldsObjs fs
end

mutual
def fieldStrs : Field → Nat
  | .fstr _ => 1
  | .fobj o => numStrs o
  | _ => 0

def fieldsStrs : FieldList → Nat
  | .nil => 0
  | .fcons _ f rest => fieldStrs f + fieldsStrs rest

def numStrs : ObjDesc → Nat
  | .mk _ fs => fieldsStrs fs
end

/- The table indices of the class-info records emitted for the object at
`base` and for all objects nested inside it. -/
mutual
def classIdxs (base : Nat) : ObjDesc → List Nat
  | .mk _ fs =>
    (base + 1 + (encFieldsSlots (base + 1) fs).length) :: classIdxsFields (base + 1) fs

def classIdxsFields (next : Nat) : FieldList → List Nat
  | .nil => []
  | .fcons _ f rest =>
    classIdxsField next f ++ classIdxsFields (next + (fieldSlots next f).length) rest

def classIdxsField (next : Nat) : Field → List Nat
  | .fobj o => classIdxs next o
  | _ => []
end

/-! ### Registry lemmas -/
/-- Head-freshness of a registrable type: its own class name does not recur
among its ancestors' names. -/
def headFresh {α : Type} : RegChain α → Bool
  | .root _ _ => true
  | .derived n _ sup => decide (n ∉ regNames sup)

/-! ### Concrete class families used by the round-trip witnesses -/
/-- A nested value of class `RCDDog` with one string field. -/
def dogW : ObjDesc :=
  .mk (.derived "RCDDog" (.root "NSObject")) (.fcons "name" (.fstr "Rex") .nil)

/-- A root value of class `RCDPerson` with an `i32` field and an object
field holding [dogW]. -/
def personW : ObjDesc :=
  .mk (.derived "RCDPerson" (.root "NSObject"))
    (.fcons "age" (.fi32 30) (.fcons "pet" (.fobj dogW) .nil))

/-- The class environment registering both `RCDPerson` and `RCDDog`. -/
def envW : List ClassDef :=
  [⟨.derived "RCDPerson" (.root "NSObject"), [("age", .si32), ("pet", .sobj "RCDDog")]⟩,
    ⟨.derived "RCDDog" (.root "NSObject"), [("name", .sstr)]⟩]

/-- A value whose `encode` writes a field under the reserved key
`"$class"`. -/
def descDollar : ObjDesc := .mk (.root "A") (.fcons "$class" (.fi64 7) .nil)

/-- Its class environment: class `"A"` whose layout reads back the field
`"$class"` as an `i64`. -/
def envDollar : List ClassDef := [⟨.root "A", [("$class", .si64)]⟩]

/-- A value whose `encode` writes the same key twice with different
values. -/
def descDup : ObjDesc :=
  .mk (.root "A") (.fcons "k" (.fi64 1) (.fcons "k" (.fi64 2) .nil))

/-- Its class environment: class `"A"` whose layout reads the key `"k"`
twice. -/
def envDup : List ClassDef := [⟨.root "A", [("k", .si64), ("k", .si64)]⟩]

/-- A value of class `"A"` holding a nested object of class `"B"`. -/
def descNest : ObjDesc :=
  .mk (.root "A") (.fcons "pet" (.fobj (.mk (.root "B") .nil)) .nil)

/-- An environment registering only class `"A"` (the root value's whole
ancestor chain) but not the nested class `"B"`. -/
def envNest : List ClassDef := [⟨.root "A", [("pet", .sobj "B")]⟩]

/-! ## Theorems -/

theorem toI32_lb (n : Int) : -2 ^ 31 ≤ toI32 n := by
  have := Int.emod_nonneg (n + 2 ^ 31) (b := 2 ^ 32) (by decide)
  unfold toI32; omega

theorem toI32_ub (n : Int) : toI32 n < 2 ^ 31 := by
  have := Int.emod_lt_of_pos (n + 2 ^ 31) (b := 2 ^ 32) (by decide)
  unfold toI32; omega

theorem toI64_lb (n : Int) : -2 ^ 63 ≤ toI64 n := by
  have := Int.emod_nonneg (n + 2 ^ 63) (b := 2 ^ 64) (by decide)
  unfold toI64; omega

theorem toI64_ub (n : Int) : toI64 n < 2 ^ 63 := by
  have := Int.emod_lt_of_pos (n + 2 ^ 63) (b := 2 ^ 64) (by decide)
  unfold toI64; omega

theorem toI32_eq_self {n : Int} (h1 : -2 ^ 31 ≤ n) (h2 : n < 2 ^ 31) :
    toI32 n = n := by
  unfold toI32
  have : (n + 2 ^ 31) % 2 ^ 32 = n + 2 ^ 31 := Int.emod_eq_of_lt (by omega) (by omega)
  omega

theorem toI64_eq_self {n : Int} (h1 : -2 ^ 63 ≤ n) (h2 : n < 2 ^ 63) :
    toI64 n = n := by
  unfold toI64
  have : (n + 2 ^ 63) % 2 ^ 64 = n + 2 ^ 63 := Int.emod_eq_of_lt (by omega) (by omega)
  omega

theorem toI32_idem (n : Int) : toI32 (toI32 n) = toI32 n :=
  toI32_eq_self (toI32_lb n) (toI32_ub n)

theorem toI64_toI32 (n : Int) : toI64 (toI32 n) = toI32 n := by
  have h1 := toI32_lb n
  have h2 := toI32_ub n
  exact toI64_eq_self (by omega) (by omega)

theorem get_classes_head (c : ClassChain) :
    (get_classes c).head? = some (chainHead c) := by
  cases c <;> simp [get_classes, chainHead]

/-! ### List helpers -/
theorem lt_of_getElem?_eq_some {α : Type} {l : List α} {i : Nat} {x : α}
    (h : l[i]? = some x) : i < l.length := by
  rcases List.getElem?_eq_some_iff.mp h with ⟨h', _⟩
  exact h'

theorem set_of_getElem?_eq_some {α : Type} {l : List α} {i : Nat} {x : α}
    (h : l[i]? = some x) : l.set i x = l := by
  induction l generalizing i with
  | nil => simp at h
  | cons y ys ih =>
    cases i with
    | zero => simp_all
    | succ j => simp_all [List.set]

/-! ### The bridge theorem: the stateful encoder realises the layout -/
mutual
theorem encodeNewObject_eq (o : ObjDesc) : ∀ (a : Archiver),
    encodeNewObject a o =
      some ({ objects := a.objects ++ encObjL a.objects.length o, active_object_index := a.active_object_index }, a.objects.length) := by
  cases o with
  | mk chain fs =>
    intro a
    have hD : (a.objects ++ [PlistValue.dictionary []])[a.objects.length]? =
        some (.dictionary []) := List.getElem?_concat_length _ _
    have step : encodeNewObject a (.mk chain fs) =
        (match encodeFields { objects := a.objects ++ [PlistValue.dictionary []], active_object_index := some ((a.objects ++ [PlistValue.dictionary []]).length - 1) } fs with
         | none => none
         | some a2 =>
           match (get_classes chain).head? with
           | none => none
           | some cls =>
             match ensureActiveModify { objects := a2.objects ++ [PlistValue.dictionary (dictInsert (dictInsert [] "$classes" (.array ((get_classes chain).map PlistValue.string))) "$classname" (.string cls))], active_object_index := a2.active_object_index } (fun d => dictInsert d "$class" (.uid ((a2.objects ++ [PlistValue.dictionary (dictInsert (dictInsert [] "$classes" (.array ((get_classes chain).map PlistValue.string))) "$classname" (.string cls))]).length - 1))) with
             | none => none
             | some a4 => some ({ objects := a4.objects, active_object_index := a.active_object_index }, (a.objects ++ [PlistValue.dictionary []]).length - 1)) := rfl
    have hlen : (a.objects ++ [PlistValue.dictionary []]).length - 1 = a.objects.length := by simp
    rw [step, hlen, encodeFields_eq fs _ _ _ hD, get_classes_head]
    set Df := encFieldsDict (a.objects ++ [PlistValue.dictionary []]).length [] fs with hDf
    set Sf := encFieldsSlots (a.objects ++ [PlistValue.dictionary []]).length fs with hSf
    have hset1 : (a.objects ++ [PlistValue.dictionary []]).set a.objects.length (.dictionary Df) = a.objects ++ [PlistValue.dictionary Df] := by
      rw [List.set_append_right _ _ (Nat.le_refl _)]
      simp
    rw [hset1]
    show (match ensureActiveModify { objects := ((a.objects ++ [PlistValue.dictionary Df]) ++ Sf) ++ [PlistValue.dictionary (classInfoDict chain)], active_object_index := some a.objects.length } (fun d => dictInsert d "$class" (.uid ((((a.objects ++ [PlistValue.dictionary Df]) ++ Sf) ++ [PlistValue.dictionary (classInfoDict chain)]).length - 1))) with
         | none => none
         | some a4 => some (({ objects := a4.objects, active_object_index := a.active_object_index } : Archiver), a.objects.length)) = _
    have hget2 : (((a.objects ++ [PlistValue.dictionary Df]) ++ Sf) ++ [PlistValue.dictionary (classInfoDict chain)])[a.objects.length]? = some (.dictionary Df) := by
      rw [List.getElem?_append_left (by simp), List.getElem?_append_left (by simp)]
      exact List.getElem?_concat_length _ _
    have hlen2 : ((((a.objects ++ [PlistValue.dictionary Df]) ++ Sf) ++ [PlistValue.dictionary (classInfoDict chain)]).length - 1) = a.objects.length + 1 + Sf.length := by
      simp; omega
    have hset2 : ∀ x, ((((a.objects ++ [PlistValue.dictionary Df]) ++ Sf) ++ [PlistValue.dictionary (classInfoDict chain)])).set a.objects.length x = ((a.objects ++ [x]) ++ Sf) ++ [PlistValue.dictionary (classInfoDict chain)] := by
      intro x
      rw [List.set_append_left _ _ (by simp), List.set_append_left _ _ (by simp),
        List.set_append_right _ _ (Nat.le_refl _)]
      simp
    simp only [ensureActiveModify, hget2, hlen2, hset2]
    unfold encObjL
    simp [classInfoDict, hDf, hSf]

theorem encodeFields_eq (fs : FieldList) : ∀ (objs : List PlistValue) (act : Nat) (D : PDict),
    objs[act]? = some (.dictionary D) →
    encodeFields { objects := objs, active_object_index := some act } fs =
      some { objects := (objs.set act (.dictionary (encFieldsDict objs.length D fs))) ++ encFieldsSlots objs.length fs, active_object_index := some act } := by
  cases fs with
  | nil =>
    intro objs act D hD
    simp [encodeFields, encFieldsDict, encFieldsSlots, set_of_getElem?_eq_some hD]
  | fcons k f rest =>
    intro objs act D hD
    have hact : act < objs.length := lt_of_getElem?_eq_some hD
    have step : encodeFields { objects := objs, active_object_index := some act } (.fcons k f rest) =
        (match encodeField { objects := objs, active_object_index := some act } k f with
         | none => none
         | some a1 => encodeFields a1 rest) := rfl
    rw [step, encodeField_eq f objs act D k hD]
    set D1 := dictInsert D k (fieldVal objs.length f) with hD1
    set s1 := fieldSlots objs.length f with hs1
    show encodeFields { objects := (objs.set act (.dictionary D1)) ++ s1, active_object_index := some act } rest = _
    have hD2 : ((objs.set act (.dictionary D1)) ++ s1)[act]? = some (.dictionary D1) := by
      rw [List.getElem?_append_left (by simpa using hact)]
      exact List.getElem?_set_self (by simpa using hact)
    rw [encodeFields_eq rest _ _ _ hD2]
    have hlen1 : ((objs.set act (.dictionary D1)) ++ s1).length = objs.length + s1.length := by
      simp
    have hset : ∀ x, ((objs.set act (.dictionary D1)) ++ s1).set act x = (objs.set act x) ++ s1 := by
      intro x
      rw [List.set_append_left _ _ (by simpa using hact), List.set_set]
    simp only [hlen1, hset]
    simp [encFieldsDict, encFieldsSlots, ← hD1, ← hs1, List.append_assoc]

theorem encodeField_eq (f : Field) : ∀ (objs : List PlistValue) (act : Nat) (D : PDict) (key : String),
    objs[act]? = some (.dictionary D) →
    encodeField { objects := objs, active_object_index := some act } key f =
      some { objects := (objs.set act (.dictionary (dictInsert D key (fieldVal objs.length f)))) ++ fieldSlots objs.length f, active_object_index := some act } := by
  cases f with
  | fi32 v =>
    intro objs act D key hD
    show Archiver.encode_i32 { objects := objs, active_object_index := some act } (toI32 v) key = _
    simp [Archiver.encode_i32, Archiver.encode_i64, ensureActiveModify, hD, fieldVal, fieldSlots]
  | fi64 v =>
    intro objs act D key hD
    show Archiver.encode_i64 { objects := objs, active_object_index := some act } (toI64 v) key = _
    simp [Archiver.encode_i64, ensureActiveModify, hD, fieldVal, fieldSlots]
  | fstr s =>
    intro objs act D key hD
    have hact : act < objs.length := lt_of_getElem?_eq_some hD
    show Archiver.encode_string { objects := objs, active_object_index := some act } s key = _
    have hg : (objs ++ [PlistValue.string s])[act]? = some (.dictionary D) := by
      rw [List.getElem?_append_left (by simpa using hact)]; exact hD
    have hset : ∀ x, (objs ++ [PlistValue.string s]).set act x = (objs.set act x) ++ [PlistValue.string s] :=
      fun x => List.set_append_left _ _ (by simpa using hact)
    simp [Archiver.encode_string, ensureActiveModify, hg, hset, fieldVal, fieldSlots]
  | fobj o =>
    intro objs act D key hD
    have hact : act < objs.length := lt_of_getElem?_eq_some hD
    have step : encodeField { objects := objs, active_object_index := some act } key (.fobj o) =
        (match encodeNewObject { objects := objs, active_object_index := some act } o with
         | none => none
         | some (a1, idx) => ensureActiveModify a1 (fun d => dictInsert d key (.uid idx))) := rfl
    rw [step, encodeNewObject_eq o { objects := objs, active_object_index := some act }]
    show ensureActiveModify { objects := objs ++ encObjL objs.length o, active_object_index := some act } (fun d => dictInsert d key (.uid objs.length)) = _
    have hg : (objs ++ encObjL objs.length o)[act]? = some (.dictionary D) := by
      rw [List.getElem?_append_left (by simpa using hact)]; exact hD
    have hset : ∀ x, (objs ++ encObjL objs.length o).set act x = (objs.set act x) ++ encObjL objs.length o :=
      fun x => List.set_append_left _ _ (by simpa using hact)
    simp [ensureActiveModify, hg, hset, fieldVal, fieldSlots]
end

/-! ### Dictionary lemmas -/
theorem dictGet_insert_self (D : PDict) (k : String) (v : PlistValue) :
    dictGet (dictInsert D k v) k = some v := by
  induction D with
  | nil => simp [dictInsert, dictGet, assocGet]
  | cons kv rest ih =>
    by_cases h : kv.1 = k
    · simp [dictInsert, h, dictGet, assocGet]
    · cases kv
      simp_all [dictInsert, dictGet, assocGet, h]

theorem dictGet_insert_ne (D : PDict) {k' k : String} (v : PlistValue) (h : k' ≠ k) :
    dictGet (dictInsert D k' v) k = dictGet D k := by
  induction D with
  | nil => simp [dictInsert, dictGet, assocGet, h]
  | cons kv rest ih =>
    by_cases h2 : kv.1 = k'
    · cases kv
      simp_all [dictInsert, dictGet, assocGet]
    · cases kv
      simp_all [dictInsert, dictGet, assocGet]

theorem assocGet_append_of_some {α : Type} {reg : List (String × α)} {n : String} {f : α}
    (t : List (String × α)) (h : assocGet reg n = some f) :
    assocGet (reg ++ t) n = some f := by
  induction reg with
  | nil => simp [assocGet] at h
  | cons kv rest ih =>
    cases kv with
    | mk k1 v1 => by_cases h2 : k1 = n <;> simp_all [assocGet]

theorem assocGet_append_of_none {α : Type} {reg : List (String × α)} {n : String}
    (t : List (String × α)) (h : assocGet reg n = none) :
    assocGet (reg ++ t) n = assocGet t n := by
  induction reg with
  | nil => simp [assocGet]
  | cons kv rest ih =>
    cases kv with
    | mk k1 v1 => by_cases h2 : k1 = n <;> simp_all [assocGet]

theorem toI32_zero : toI32 0 = 0 :=
  toI32_eq_self (by norm_num) (by norm_num)

theorem asSignedInteger_integer {n : Int} (h1 : -2 ^ 63 ≤ n) (h2 : n < 2 ^ 63) :
    asSignedInteger (.integer n) = some n := by
  show (if -2 ^ 63 ≤ n ∧ n < 2 ^ 63 then some n else none) = some n
  rw [if_pos ⟨h1, h2⟩]

/-! ## Claim theorems -/
/-- C10: the decoder never validates the envelope's version field.  Two
envelopes identical except for `$version` decode to the same result under
every registry, so no input ever fails because `$version` differs from
`100000`. -/
theorem c10_version_never_validated {ω : Type} (reg : List (String × UnFn ω))
    (d : ArchiveDict) (v1 v2 : Nat) :
    unarchive_root_object reg { d with version := v1 } =
      unarchive_root_object reg { d with version := v2 } := by
  cases d
  rfl

/-- C2: the exact error taxonomy and check order of
`unarchive_root_object` / `decode_active_object`:
`UnsupportedArchiver(actual)` iff the archiver identifier differs from
`"NSKeyedArchiver"`; otherwise `NoRootObject` iff `"root"` is absent from
the top mapping; otherwise `MalformedObject` iff the root index is not below
the table length; otherwise the root slot is decoded, where a non-dictionary
slot, a missing or wrong-kind `$class`/`$classname` chain, and a
reconstruction function returning absent each give `MalformedObject`, an
unregistered class name gives `UnknownClass(name)`, and a successful
reconstruction gives the produced handle. -/
theorem c2_error_taxonomy {ω : Type} (reg : List (String × UnFn ω)) (d : ArchiveDict) :
    (d.archiver_class_name ≠ keyedArchiverClassName →
      unarchive_root_object reg d = some (.error (.UnsupportedArchiver d.archiver_class_name))) ∧
    (d.archiver_class_name = keyedArchiverClassName → assocGet d.top_objects "root" = none →
      unarchive_root_object reg d = some (.error .NoRootObject)) ∧
    (∀ r, d.archiver_class_name = keyedArchiverClassName →
      assocGet d.top_objects "root" = some r → d.objects.length ≤ r →
      unarchive_root_object reg d = some (.error .MalformedObject)) ∧
    (∀ r, d.archiver_class_name = keyedArchiverClassName →
      assocGet d.top_objects "root" = some r → r < d.objects.length →
      unarchive_root_object reg d =
        decode_active_object reg { objects := d.objects, active_object := some r }) ∧
    (∀ (u : UnState) (slot : PlistValue), ensureActiveObject u = some slot →
      (asDictionary slot = none → decode_active_object reg u = some (.error .MalformedObject)) ∧
      (∀ dct, slot = .dictionary dct →
        ((dictGet dct "$class").bind asUid = none →
          decode_active_object reg u = some (.error .MalformedObject)) ∧
        (∀ ci, (dictGet dct "$class").bind asUid = some ci →
          (u.objects.length ≤ ci →
            decode_active_object reg u = some (.error .MalformedObject)) ∧
          (ci < u.objects.length →
            ((u.objects[ci]?).bind (fun cv => (asDictionary cv).bind
                (fun cd => (dictGet cd "$classname").bind asString)) = none →
              decode_active_object reg u = some (.error .MalformedObject)) ∧
            (∀ cn, (u.objects[ci]?).bind (fun cv => (asDictionary cv).bind
                (fun cd => (dictGet cd "$classname").bind asString)) = some cn →
              (assocGet reg cn = none →
                decode_active_object reg u = some (.error (.UnknownClass cn))) ∧
              (∀ fn, assocGet reg cn = some fn →
                (fn u = none →
                  decode_active_object reg u = some (.error .MalformedObject)) ∧
                (∀ ob, fn u = some ob →
                  decode_active_object reg u = some (.ok ob)))))))) := by
  refine ⟨?_, ?_, ?_, ?_, ?_⟩
  · intro h
    simp [unarchive_root_object, h]
  · intro h1 h2
    simp [unarchive_root_object, h1, h2]
  · intro r h1 h2 h3
    simp [unarchive_root_object, h1, h2, h3]
  · intro r h1 h2 h3
    simp [unarchive_root_object, h1, h2, show ¬ d.objects.length ≤ r from by omega]
  · intro u slot h
    constructor
    · intro hnd
      cases slot <;> simp_all [decode_active_object, asDictionary]
    · intro dct hdct
      subst hdct
      constructor
      · intro hclass
        simp [decode_active_object, h, hclass]
      · intro ci hci
        constructor
        · intro hle
          simp [decode_active_object, h, hci, hle]
        · intro hlt
          have hnle : ¬ u.objects.length ≤ ci := by omega
          constructor
          · intro hcn
            simp [decode_active_object, h, hci, hnle, hcn]
          · intro cn hcn
            constructor
            · intro hreg
              simp [decode_active_object, h, hci, hnle, hcn, hreg]
            · intro fn hfn
              constructor
              · intro hfu
                simp [decode_active_object, h, hci, hnle, hcn, hfn, hfu]
              · intro ob hob
                simp [decode_active_object, h, hci, hnle, hcn, hfn, hob]

/-- Witness for C2 at a concrete input: an envelope whose archiver
identifier is `"NSArchiver"` fails with `UnsupportedArchiver("NSArchiver")`. -/
theorem c2_error_taxonomy_witness :
    unarchive_root_object ([] : List (String × UnFn Nat))
        { archiver_class_name := "NSArchiver", objects := [], top_objects := [], version := 100000 } =
      some (.error (.UnsupportedArchiver "NSArchiver")) :=
  (c2_error_taxonomy [] _).1 (by decide)

/-- C4: decoder defaults.  With a valid active slot: `decode_i64` and
`decode_i32` return `0` when the key is absent or its value is not an inline
integer (including when the slot itself is not a dictionary); `decode_string`
returns absent exactly when the key is missing, its value is not a
reference, the reference is out of bounds, or the referenced entry is not a
string; `decode_object` returns absent on those same failure modes or when
the nested reconstruction fails.  None of the four has an error channel:
each returns a plain value (an `Int` or an `Option`), never an `Error`. -/
theorem c4_decoder_defaults (u : UnState) (act : Nat) (key : String)
    (slot : PlistValue) (hact : u.active_object = some act)
    (hs : u.objects[act]? = some slot) :
    (∀ dct, slot = .dictionary dct → (dictGet dct key).bind asSignedInteger = none →
      decode_i64 u key = some 0 ∧ decode_i32 u key = some 0) ∧
    (asDictionary slot = none → decode_i64 u key = some 0 ∧ decode_i32 u key = some 0) ∧
    (∀ s, decode_string u key = some (some s) ↔
      ∃ dct j, slot = .dictionary dct ∧ (dictGet dct key).bind asUid = some j ∧
        j < u.objects.length ∧ u.objects[j]? = some (.string s)) ∧
    (decode_string u key = some none ↔
      ¬ ∃ s dct j, slot = .dictionary dct ∧ (dictGet dct key).bind asUid = some j ∧
        j < u.objects.length ∧ u.objects[j]? = some (.string s)) ∧
    (∀ (ω : Type) (reg : List (String × UnFn ω)),
      (asDictionary slot = none → decode_object reg u key = some (u, none)) ∧
      (∀ dct, slot = .dictionary dct →
        ((dictGet dct key).bind asUid = none → decode_object reg u key = some (u, none)) ∧
        (∀ j, (dictGet dct key).bind asUid = some j → u.objects.length ≤ j →
          decode_object reg u key = some (u, none)) ∧
        (∀ j e, (dictGet dct key).bind asUid = some j → j < u.objects.length →
          decode_active_object reg { objects := u.objects, active_object := some j } =
            some (.error e) →
          decode_object reg u key = some (u, none)))) := by
  have hE : ensureActiveObject u = some slot := by
    simp [ensureActiveObject, hact, hs]
  have hchar : ∀ s, decode_string u key = some (some s) ↔
      ∃ dct j, slot = .dictionary dct ∧ (dictGet dct key).bind asUid = some j ∧
        j < u.objects.length ∧ u.objects[j]? = some (.string s) := by
    intro s
    constructor
    · intro h
      cases slot with
      | dictionary dct =>
        refine ⟨dct, ?_⟩
        simp only [decode_string, hE] at h
        cases hu : (dictGet dct key).bind asUid with
        | none => simp [hu] at h
        | some j =>
          refine ⟨j, rfl, rfl, ?_⟩
          rw [hu] at h
          by_cases hj : u.objects.length ≤ j
          · simp [hj] at h
          · refine ⟨by omega, ?_⟩
            simp only [if_neg hj, Option.some.injEq] at h
            cases hg : u.objects[j]? with
            | none => simp [hg] at h
            | some w => cases w <;> simp_all [asString]
      | string a => simp [decode_string, hE] at h
      | integer a => simp [decode_string, hE] at h
      | boolean a => simp [decode_string, hE] at h
      | uid a => simp [decode_string, hE] at h
      | array a => simp [decode_string, hE] at h
    · rintro ⟨dct, j, rfl, hu, hj, hg⟩
      simp [decode_string, hE, hu, show ¬ u.objects.length ≤ j from by omega, hg, asString]
  have hsome : ∃ X, decode_string u key = some X := by
    cases slot with
    | dictionary dct =>
      simp only [decode_string, hE]
      cases hu : (dictGet dct key).bind asUid with
      | none => exact ⟨none, by simp⟩
      | some j =>
        by_cases hj : u.objects.length ≤ j
        · exact ⟨none, by simp [hj]⟩
        · exact ⟨(u.objects[j]?).bind asString, by simp [hj]⟩
    | string a => exact ⟨none, by simp [decode_string, hE]⟩
    | integer a => exact ⟨none, by simp [decode_string, hE]⟩
    | boolean a => exact ⟨none, by simp [decode_string, hE]⟩
    | uid a => exact ⟨none, by simp [decode_string, hE]⟩
    | array a => exact ⟨none, by simp [decode_string, hE]⟩
  refine ⟨?_, ?_, hchar, ?_, ?_⟩
  · intro dct hdct hnone
    subst hdct
    simp [decode_i64, decode_i32, hE, hnone, toI32_zero]
  · intro hnd
    cases slot <;>
      simp_all [decode_i64, decode_i32, ensureActiveObject, asDictionary, toI32_zero]
  · constructor
    · intro h hex
      obtain ⟨s, dct, j, h1, h2, h3, h4⟩ := hex
      have h5 := (hchar s).mpr ⟨dct, j, h1, h2, h3, h4⟩
      rw [h] at h5
      cases h5
    · intro hne
      obtain ⟨X, hX⟩ := hsome
      cases X with
      | none => exact hX
      | some s =>
        obtain ⟨dct, j, h1, h2, h3, h4⟩ := (hchar s).mp hX
        exact absurd ⟨s, dct, j, h1, h2, h3, h4⟩ hne
  · intro ω reg
    refine ⟨?_, ?_⟩
    · intro hnd
      cases slot <;> simp_all [decode_object, ensureActiveObject, asDictionary]
    · intro dct hdct
      subst hdct
      refine ⟨?_, ?_, ?_⟩
      · intro hu
        simp [decode_object, hE, hu]
      · intro j hu hj
        simp [decode_object, hE, hu, hj]
      · intro j e hu hj hd
        simp [decode_object, hE, hu, show ¬ u.objects.length ≤ j from by omega, hd,
          Except.toOption]

/-- Witness for C4: in a table whose active slot `0` is an empty dictionary,
reading the absent key `"k"` yields `0` for both integer decoders, and
`decode_string` on the absent key yields absent. -/
theorem c4_decoder_defaults_witness :
    (decode_i64 { objects := [.dictionary []], active_object := some 0 } "k" = some 0 ∧
      decode_i32 { objects := [.dictionary []], active_object := some 0 } "k" = some 0) ∧
    decode_string { objects := [.dictionary []], active_object := some 0 } "k" = some none := by
  have h := c4_decoder_defaults { objects := [.dictionary []], active_object := some 0 } 0 "k"
    (.dictionary []) rfl rfl
  refine ⟨h.1 [] rfl (by decide), (h.2.2.2.1).mpr ?_⟩
  rintro ⟨s, dct, j, h1, h2, h3, h4⟩
  cases h1
  simp [dictGet, assocGet] at h2

/-- C5: `decode_object` always restores the active-slot cursor: whenever the
call completes, the final state has the same cursor (and the same table) as
the initial state, whatever the nested decode did; and a structured error
from the nested `decode_active_object` call is collapsed into a plain
absent result (`.ok()`), never propagated. -/
theorem c5_decode_object_frame {ω : Type} (reg : List (String × UnFn ω))
    (u : UnState) (key : String) :
    (∀ (u2 : UnState) (r : Option ω), decode_object reg u key = some (u2, r) →
      u2.active_object = u.active_object ∧ u2.objects = u.objects) ∧
    (∀ act dct j e, u.active_object = some act →
      u.objects[act]? = some (.dictionary dct) →
      (dictGet dct key).bind asUid = some j → j < u.objects.length →
      decode_active_object reg { objects := u.objects, active_object := some j } =
        some (.error e) →
      decode_object reg u key = some (u, none)) := by
  constructor
  · intro u2 r h
    unfold decode_object at h
    cases hE : ensureActiveObject u with
    | none => rw [hE] at h; cases h
    | some v =>
      simp only [hE] at h
      cases v with
      | dictionary dct =>
        cases hu : (dictGet dct key).bind asUid with
        | none =>
          simp only [hu] at h
          cases h
          exact ⟨rfl, rfl⟩
        | some j =>
          simp only [hu] at h
          by_cases hj : u.objects.length ≤ j
          · rw [if_pos hj] at h
            cases h
            exact ⟨rfl, rfl⟩
          · rw [if_neg hj] at h
            cases hd : decode_active_object reg { objects := u.objects, active_object := some j } with
            | none => simp only [hd] at h; cases h
            | some dec =>
              simp only [hd] at h
              cases h
              exact ⟨rfl, rfl⟩
      | string a => simp only at h; cases h; exact ⟨rfl, rfl⟩
      | integer a => simp only at h; cases h; exact ⟨rfl, rfl⟩
      | boolean a => simp only at h; cases h; exact ⟨rfl, rfl⟩
      | uid a => simp only at h; cases h; exact ⟨rfl, rfl⟩
      | array a => simp only at h; cases h; exact ⟨rfl, rfl⟩
  · intro act dct j e hact hs hu hj hd
    have hE : ensureActiveObject u = some (.dictionary dct) := by
      simp [ensureActiveObject, hact, hs]
    simp [decode_object, hE, hu, show ¬ u.objects.length ≤ j from by omega, hd,
      Except.toOption]

/-- Witness for C5: a nested decode of a slot that is a plain string fails
with `MalformedObject`, which `decode_object` collapses into an absent
result while restoring the cursor to slot 1. -/
theorem c5_decode_object_frame_witness :
    decode_object ([] : List (String × UnFn Nat))
        { objects := [.string "$null", .dictionary [("x", .uid 2)], .string "y"],
          active_object := some 1 } "x" =
      some ({ objects := [.string "$null", .dictionary [("x", .uid 2)], .string "y"],
              active_object := some 1 }, none) :=
  (c5_decode_object_frame [] _ "x").2 1 [("x", .uid 2)] 2 .MalformedObject rfl rfl rfl
    (by decide) rfl

/-- C9: `decode_i32` is `decode_i64` truncated to the low 32 bits
(reinterpreted as a signed `i32`, i.e. `toI32`), so a stored integer outside
the `i32` range decodes to the wrapped value, not `0` or an error; dually
`encode_i32` stores the value sign-extended to 64 bits, so the
`encode_i32`/`decode_i32` pair round-trips every in-range `i32` exactly. -/
theorem c9_i32_truncation :
    (∀ (u : UnState) (key : String), decode_i32 u key = (decode_i64 u key).map toI32) ∧
    (∀ (u : UnState) (act : Nat) (key : String) (dct : PDict) (n : Int),
      u.active_object = some act → u.objects[act]? = some (.dictionary dct) →
      dictGet dct key = some (.integer n) → -2 ^ 63 ≤ n → n < 2 ^ 63 →
      decode_i64 u key = some n ∧ decode_i32 u key = some (toI32 n)) ∧
    (∀ (chain : ClassChain) (k : String) (x : Int) (env : ArchiveDict),
      k ≠ "$class" →
      to_archive_dict (.mk chain (.fcons k (.fi32 x) .nil)) = some env →
      decode_i32 { objects := env.objects, active_object := some 1 } k = some (toI32 x)) ∧
    (∀ (chain : ClassChain) (k : String) (x : Int) (env : ArchiveDict),
      k ≠ "$class" → -2 ^ 31 ≤ x → x < 2 ^ 31 →
      to_archive_dict (.mk chain (.fcons k (.fi32 x) .nil)) = some env →
      decode_i32 { objects := env.objects, active_object := some 1 } k = some x) := by
  have hmain : ∀ (chain : ClassChain) (k : String) (x : Int) (env : ArchiveDict),
      k ≠ "$class" →
      to_archive_dict (.mk chain (.fcons k (.fi32 x) .nil)) = some env →
      decode_i32 { objects := env.objects, active_object := some 1 } k = some (toI32 x) := by
    intro chain k x env hk he
    simp only [to_archive_dict, encodeNewObject_eq, Archiver.new, Archiver.seal] at he
    cases he
    simp only [encObjL, encFieldsDict, encFieldsSlots, fieldSlots, fieldVal]
    have hd : dictGet (dictInsert (dictInsert [] k (.integer (toI32 x))) "$class"
        (.uid 2)) k = some (.integer (toI32 x)) := by
      rw [dictGet_insert_ne _ _ (Ne.symm hk), dictGet_insert_self]
    have hrange : -2 ^ 63 ≤ toI32 x ∧ toI32 x < 2 ^ 63 := by
      have h1 := toI32_lb x
      have h2 := toI32_ub x
      have e1 : -(2:Int) ^ 63 ≤ -2 ^ 31 := by norm_num
      have e2 : (2:Int) ^ 31 ≤ 2 ^ 63 := by norm_num
      exact ⟨by omega, by omega⟩
    simp [decode_i32, decode_i64, ensureActiveObject, hd,
      asSignedInteger_integer hrange.1 hrange.2, toI32_idem]
  refine ⟨?_, ?_, hmain, ?_⟩
  · intro u key
    rfl
  · intro u act key dct n hact hs hget h1 h2
    have hE : ensureActiveObject u = some (.dictionary dct) := by
      simp [ensureActiveObject, hact, hs]
    constructor
    · simp [decode_i64, hE, hget, asSignedInteger_integer h1 h2]
    · simp [decode_i32, decode_i64, hE, hget, asSignedInteger_integer h1 h2]
  · intro chain k x env hk h1 h2 he
    rw [hmain chain k x env hk he, toI32_eq_self h1 h2]

/-- Witness for C9: the stored integer `2^31` (outside the `i32` range)
decodes through `decode_i32` as the wrapped value `-2^31`, not `0`. -/
theorem c9_i32_truncation_witness :
    (decode_i64 { objects := [.dictionary [("k", .integer (2 ^ 31))]], active_object := some 0 }
        "k" = some (2 ^ 31) ∧
      decode_i32 { objects := [.dictionary [("k", .integer (2 ^ 31))]], active_object := some 0 }
        "k" = some (toI32 (2 ^ 31))) ∧
    toI32 (2 ^ 31) = -(2 ^ 31) :=
  ⟨c9_i32_truncation.2.1 _ 0 "k" [("k", .integer (2 ^ 31))] (2 ^ 31) rfl rfl rfl
      (by norm_num) (by norm_num),
    by decide⟩

theorem assocGet_insertIfAbsent_of_some {α : Type} {reg : List (String × α)} {m : String}
    {g : α} (n : String) (f : α) (h : assocGet reg m = some g) :
    assocGet (insertIfAbsent reg n f) m = some g := by
  unfold insertIfAbsent
  cases hn : assocGet reg n with
  | some g2 => exact h
  | none => exact assocGet_append_of_some _ h

theorem assocGet_insertIfAbsent_of_none {α : Type} {reg : List (String × α)} {m : String}
    (n : String) (f : α) (h : assocGet reg m = none) (hne : m ≠ n) :
    assocGet (insertIfAbsent reg n f) m = none := by
  unfold insertIfAbsent
  cases hn : assocGet reg n with
  | some g2 => exact h
  | none =>
    rw [assocGet_append_of_none _ h]
    simp only [assocGet]
    rw [if_neg (fun h2 => hne h2.symm)]

theorem assocGet_insertIfAbsent_self {α : Type} {reg : List (String × α)} {n : String}
    (f : α) (h : assocGet reg n = none) :
    assocGet (insertIfAbsent reg n f) n = some f := by
  unfold insertIfAbsent
  rw [h, assocGet_append_of_none _ h]
  simp [assocGet]

theorem register_type_preserve {α : Type} {reg : List (String × α)} {m : String} {g : α}
    (c : RegChain α) (h : assocGet reg m = some g) :
    assocGet (register_type reg c) m = some g := by
  induction c generalizing reg with
  | root n f => exact assocGet_insertIfAbsent_of_some n f h
  | derived n f sup ih => exact assocGet_insertIfAbsent_of_some n f (ih h)

theorem register_type_none {α : Type} {reg : List (String × α)} {m : String}
    (c : RegChain α) (h : assocGet reg m = none) (hm : m ∉ regNames c) :
    assocGet (register_type reg c) m = none := by
  induction c generalizing reg with
  | root n f =>
    simp [regNames] at hm
    exact assocGet_insertIfAbsent_of_none n f h hm
  | derived n f sup ih =>
    simp [regNames] at hm
    exact assocGet_insertIfAbsent_of_none n f (ih h hm.2) hm.1

/-- C7: `register_type` maps a (head-fresh, not-yet-registered) type's class
name to its own reconstruction function; it recursively registers every
ancestor along the chain under its own name; and the first registration
wins: every mapping already present in the registry is left unchanged. -/
theorem c7_register_type {α : Type} (reg : List (String × α)) (c : RegChain α) :
    (assocGet reg (regHead c) = none → headFresh c = true →
      assocGet (register_type reg c) (regHead c) = some (regFn c)) ∧
    (∀ m g, assocGet reg m = some g → assocGet (register_type reg c) m = some g) ∧
    (∀ m, m ∈ regNames c → (assocGet (register_type reg c) m).isSome = true) := by
  refine ⟨?_, ?_, ?_⟩
  · intro h hf
    cases c with
    | root n f => exact assocGet_insertIfAbsent_self f h
    | derived n f sup =>
      simp only [headFresh, decide_eq_true_eq] at hf
      have h2 : assocGet (register_type reg sup) n = none :=
        register_type_none sup h hf
      exact assocGet_insertIfAbsent_self f h2
  · intro m g h
    exact register_type_preserve c h
  · intro m hm
    induction c generalizing reg with
    | root n f =>
      simp only [regNames, List.mem_singleton] at hm
      rw [hm]
      show (assocGet (insertIfAbsent reg n f) n).isSome = true
      cases hn : assocGet reg n with
      | some g => rw [assocGet_insertIfAbsent_of_some n f hn]; rfl
      | none => rw [assocGet_insertIfAbsent_self f hn]; rfl
    | derived n f sup ih =>
      show (assocGet (insertIfAbsent (register_type reg sup) n f) m).isSome = true
      simp only [regNames, List.mem_cons] at hm
      cases hm with
      | inl hm =>
        rw [hm]
        cases hn : assocGet (register_type reg sup) n with
        | some g => rw [assocGet_insertIfAbsent_of_some n f hn]; rfl
        | none => rw [assocGet_insertIfAbsent_self f hn]; rfl
      | inr hm =>
        have h2 := ih reg hm
        cases hs : assocGet (register_type reg sup) m with
        | some g => rw [assocGet_insertIfAbsent_of_some n f hs]; rfl
        | none => rw [hs] at h2; simp at h2

/-- Witness for C7: registering `derived "B" 1 (root "A" 2)` in an empty
registry maps `"B"` to `1`, and also registers the ancestor `"A"`. -/
theorem c7_register_type_witness :
    assocGet (register_type ([] : List (String × Nat)) (.derived "B" 1 (.root "A" 2))) "B" =
        some 1 ∧
    (assocGet (register_type ([] : List (String × Nat)) (.derived "B" 1 (.root "A" 2)))
        "A").isSome = true :=
  ⟨(c7_register_type [] (.derived "B" 1 (.root "A" 2))).1 rfl (by decide),
    (c7_register_type [] (.derived "B" 1 (.root "A" 2))).2.2 "A" (by simp [regNames])⟩

/-- C6: the ancestor chain satisfies
`get_classes (derived n s) = n :: get_classes s` with base case
`get_classes (root n) = [n]` (the root sentinel's chain of ancestors is
empty, yet its own name is still the single produced name); and every
encode of an object writes the full chain into the class-info record's
`$classes` with `$classname` equal to the chain's head. -/
theorem c6_ancestor_chain :
    (∀ (n : String) (s : ClassChain), get_classes (.derived n s) = n :: get_classes s) ∧
    (∀ n : String, get_classes (.root n) = [n]) ∧
    (∀ (a : Archiver) (chain : ClassChain) (fs : FieldList) (a' : Archiver) (idx : Nat),
      encodeNewObject a (.mk chain fs) = some (a', idx) →
      ∃ ci, a'.objects[a'.objects.length - 1]? = some (.dictionary ci) ∧
        dictGet ci "$classes" = some (.array ((get_classes chain).map PlistValue.string)) ∧
        dictGet ci "$classname" = some (.string (chainHead chain)) ∧
        (get_classes chain).head? = some (chainHead chain)) := by
  refine ⟨fun n s => rfl, fun n => rfl, ?_⟩
  intro a chain fs a' idx he
  rw [encodeNewObject_eq] at he
  cases he
  refine ⟨classInfoDict chain, ?_, ?_, ?_, get_classes_head chain⟩
  · have hsplit : a.objects ++ encObjL a.objects.length (.mk chain fs) =
        (a.objects ++
          [PlistValue.dictionary
            (dictInsert (encFieldsDict (a.objects.length + 1) [] fs) "$class"
              (.uid (a.objects.length + 1 +
                (encFieldsSlots (a.objects.length + 1) fs).length)))] ++
          encFieldsSlots (a.objects.length + 1) fs) ++
          [PlistValue.dictionary (classInfoDict chain)] := by
      simp [encObjL]
    show (a.objects ++ encObjL a.objects.length (.mk chain fs))[(a.objects ++
        encObjL a.objects.length (.mk chain fs)).length - 1]? =
      some (.dictionary (classInfoDict chain))
    rw [hsplit]
    have hlen : ((a.objects ++
        [PlistValue.dictionary
          (dictInsert (encFieldsDict (a.objects.length + 1) [] fs) "$class"
            (.uid (a.objects.length + 1 +
              (encFieldsSlots (a.objects.length + 1) fs).length)))] ++
          encFieldsSlots (a.objects.length + 1) fs) ++
          [PlistValue.dictionary (classInfoDict chain)]).length - 1 =
        (a.objects ++
          [PlistValue.dictionary
            (dictInsert (encFieldsDict (a.objects.length + 1) [] fs) "$class"
              (.uid (a.objects.length + 1 +
                (encFieldsSlots (a.objects.length + 1) fs).length)))] ++
          encFieldsSlots (a.objects.length + 1) fs).length := by
      simp
    rw [hlen]
    exact List.getElem?_concat_length _ _
  · show dictGet (classInfoDict chain) "$classes" = _
    unfold classInfoDict
    rw [dictGet_insert_ne _ _ (by decide), dictGet_insert_self]
  · show dictGet (classInfoDict chain) "$classname" = _
    unfold classInfoDict
    rw [dictGet_insert_self]

/-- Witness for C6: encoding a field-free object of class
`derived "B" (root "NSObject")` emits `$classes = ["B", "NSObject"]` and
`$classname = "B"` in the final table slot. -/
theorem c6_ancestor_chain_witness :
    ∃ (a' : Archiver) (idx : Nat),
      encodeNewObject Archiver.new (.mk (.derived "B" (.root "NSObject")) .nil) =
        some (a', idx) ∧
      ∃ ci, a'.objects[a'.objects.length - 1]? = some (.dictionary ci) ∧
        dictGet ci "$classes" =
          some (.array ((get_classes (.derived "B" (.root "NSObject"))).map
            PlistValue.string)) ∧
        dictGet ci "$classname" =
          some (.string (chainHead (.derived "B" (.root "NSObject")))) ∧
        (get_classes (.derived "B" (.root "NSObject"))).head? =
          some (chainHead (.derived "B" (.root "NSObject"))) := by
  obtain ⟨ci, h1, h2, h3, h4⟩ := c6_ancestor_chain.2.2 Archiver.new
    (.derived "B" (.root "NSObject")) .nil _ _ rfl
  exact ⟨_, _, rfl, ci, h1, h2, h3, h4⟩

/-! ### Reference-bound lemmas (for C3) -/
theorem dictInsert_mem {D : PDict} {k : String} {v : PlistValue} {kv : String × PlistValue}
    (h : kv ∈ dictInsert D k v) : kv ∈ D ∨ kv = (k, v) := by
  induction D with
  | nil => simpa [dictInsert] using h
  | cons kv2 rest ih =>
    by_cases h2 : kv2.1 = k
    · cases kv2
      simp only [dictInsert, if_pos h2, List.mem_cons] at h
      rcases h with h | h
      · exact Or.inr h
      · exact Or.inl (List.mem_cons_of_mem _ h)
    · cases kv2
      simp only [dictInsert, if_neg h2, List.mem_cons] at h
      rcases h with h | h
      · exact Or.inl (by simp [h])
      · rcases ih h with h3 | h3
        · exact Or.inl (List.mem_cons_of_mem _ h3)
        · exact Or.inr h3

theorem UidsBounded.dict_inv {n : Nat} {D : PDict}
    (h : UidsBounded n (.dictionary D)) : ∀ kv ∈ D, UidsBounded n kv.2 := by
  cases h with
  | dictionary _ h2 => exact h2

theorem classInfoDict_bounded (n : Nat) (chain : ClassChain) :
    UidsBounded n (.dictionary (classInfoDict chain)) := by
  refine .dictionary _ (fun kv hkv => ?_)
  rcases dictInsert_mem hkv with h | h
  · rcases dictInsert_mem h with h2 | h2
    · simp at h2
    · rw [h2]
      refine .array _ (fun x hx => ?_)
      simp only [List.mem_map] at hx
      obtain ⟨a, _, ha⟩ := hx
      rw [← ha]
      exact .string a
  · rw [h]
    exact .string _

theorem encObjL_length_pos (base : Nat) (o : ObjDesc) : 0 < (encObjL base o).length := by
  cases o
  simp [encObjL]

mutual
theorem encObjL_bounded (o : ObjDesc) : ∀ (base n : Nat),
    base + (encObjL base o).length ≤ n → ∀ v ∈ encObjL base o, UidsBounded n v := by
  cases o with
  | mk chain fs =>
    intro base n h v hv
    rw [encObjL] at hv
    have hlen : (encObjL base (.mk chain fs)).length =
        (encFieldsSlots (base + 1) fs).length + 2 := by
      simp [encObjL]
    rw [hlen] at h
    rcases List.mem_cons.mp hv with hv | hv
    · subst hv
      have hDf : UidsBounded n (.dictionary (encFieldsDict (base + 1) [] fs)) :=
        encFieldsDict_bounded fs (base + 1) n [] (.dictionary [] (by simp)) (by omega)
      refine .dictionary _ (fun kv hkv => ?_)
      rcases dictInsert_mem hkv with h2 | h2
      · exact hDf.dict_inv kv h2
      · rw [h2]
        exact .uid _ (by omega)
    · rcases List.mem_append.mp hv with hv | hv
      · exact encFieldsSlots_bounded fs (base + 1) n (by omega) v hv
      · rw [List.mem_singleton.mp hv]
        exact classInfoDict_bounded n chain

theorem encFieldsSlots_bounded (fs : FieldList) : ∀ (next n : Nat),
    next + (encFieldsSlots next fs).length ≤ n →
    ∀ v ∈ encFieldsSlots next fs, UidsBounded n v := by
  cases fs with
  | nil => intro next n h v hv; simp [encFieldsSlots] at hv
  | fcons k f rest =>
    intro next n h v hv
    rw [encFieldsSlots] at hv
    have hlen : (encFieldsSlots next (.fcons k f rest)).length =
        (fieldSlots next f).length +
          (encFieldsSlots (next + (fieldSlots next f).length) rest).length := by
      simp [encFieldsSlots]
    rw [hlen] at h
    rcases List.mem_append.mp hv with hv | hv
    · exact fieldSlots_bounded f next n (by omega) v hv
    · exact encFieldsSlots_bounded rest (next + (fieldSlots next f).length) n (by omega) v hv

theorem encFieldsDict_bounded (fs : FieldList) : ∀ (next n : Nat) (D : PDict),
    UidsBounded n (.dictionary D) → next + (encFieldsSlots next fs).length ≤ n →
    UidsBounded n (.dictionary (encFieldsDict next D fs)) := by
  cases fs with
  | nil => intro next n D hD h; exact hD
  | fcons k f rest =>
    intro next n D hD h
    have hlen : (encFieldsSlots next (.fcons k f rest)).length =
        (fieldSlots next f).length +
          (encFieldsSlots (next + (fieldSlots next f).length) rest).length := by
      simp [encFieldsSlots]
    rw [hlen] at h
    rw [encFieldsDict]
    refine encFieldsDict_bounded rest (next + (fieldSlots next f).length) n _ ?_ (by omega)
    refine .dictionary _ (fun kv hkv => ?_)
    rcases dictInsert_mem hkv with h2 | h2
    · exact hD.dict_inv kv h2
    · rw [h2]
      cases f with
      | fi32 v => exact .integer _
      | fi64 v => exact .integer _
      | fstr s =>
        refine .uid _ ?_
        simp [fieldSlots] at h
        omega
      | fobj o =>
        refine .uid _ ?_
        have hp := encObjL_length_pos next o
        simp only [fieldSlots] at h
        omega

theorem fieldSlots_bounded (f : Field) : ∀ (next n : Nat),
    next + (fieldSlots next f).length ≤ n → ∀ v ∈ fieldSlots next f, UidsBounded n v := by
  cases f with
  | fi32 v => intro next n h w hw; simp [fieldSlots] at hw
  | fi64 v => intro next n h w hw; simp [fieldSlots] at hw
  | fstr s =>
    intro next n h w hw
    rw [fieldSlots, List.mem_singleton] at hw
    rw [hw]
    exact .string s
  | fobj o =>
    intro next n h w hw
    exact encObjL_bounded o next n h w hw
end

/-- C3: after every successful encode, table index 0 holds the `"$null"`
string sentinel, and every reference (`uid`) value occurring anywhere in the
table is a valid index strictly below the table's length. -/
theorem c3_table_invariants (o : ObjDesc) (env : ArchiveDict)
    (he : to_archive_dict o = some env) :
    env.objects[0]? = some (.string "$null") ∧
    ∀ v ∈ env.objects, UidsBounded env.objects.length v := by
  simp only [to_archive_dict, encodeNewObject_eq, Archiver.new, Archiver.seal] at he
  cases he
  constructor
  · show ([PlistValue.string "$null"] ++
        encObjL [PlistValue.string "$null"].length o)[0]? = some (.string "$null")
    rw [List.getElem?_append_left (by simp)]
    rfl
  · intro v hv
    rcases List.mem_append.mp hv with hv | hv
    · rw [List.mem_singleton.mp hv]
      exact .string _
    · refine encObjL_bounded o 1 _ ?_ v hv
      simp
      omega

/-- Witness for C3 at a concrete two-object, one-string archive. -/
theorem c3_table_invariants_witness :
    ∃ env, to_archive_dict
        (.mk (.derived "B" (.root "NSObject"))
          (.fcons "a" (.fi64 7)
            (.fcons "s" (.fstr "hi")
              (.fcons "o" (.fobj (.mk (.root "NSObject") .nil)) .nil)))) = some env ∧
      env.objects[0]? = some (.string "$null") ∧
      ∀ v ∈ env.objects, UidsBounded env.objects.length v :=
  ⟨_, rfl, c3_table_invariants
    (.mk (.derived "B" (.root "NSObject"))
      (.fcons "a" (.fi64 7)
        (.fcons "s" (.fstr "hi")
          (.fcons "o" (.fobj (.mk (.root "NSObject") .nil)) .nil)))) _ rfl⟩

/-! ### Segment lemmas -/
theorem segAt_cons {T : List PlistValue} {base : Nat} {x : PlistValue}
    {xs : List PlistValue} (h : segAt T base (x :: xs)) :
    T[base]? = some x ∧ segAt T (base + 1) xs := by
  constructor
  · have h0 := h 0 (by simp)
    simpa using h0
  · intro i hi
    have h1 := h (i + 1) (by simp; omega)
    rw [show base + (i + 1) = base + 1 + i from by omega] at h1
    simpa using h1

theorem segAt_append {T : List PlistValue} {s : Nat} {l1 l2 : List PlistValue}
    (h : segAt T s (l1 ++ l2)) : segAt T s l1 ∧ segAt T (s + l1.length) l2 := by
  constructor
  · intro i hi
    have h1 := h i (by simp; omega)
    rwa [List.getElem?_append_left hi] at h1
  · intro i hi
    have h1 := h (l1.length + i) (by simp; omega)
    rw [List.getElem?_append_right (by omega)] at h1
    rw [show s + (l1.length + i) = s + l1.length + i from by omega] at h1
    simpa using h1

theorem segAt_append_self (pre seg : List PlistValue) : segAt (pre ++ seg) pre.length seg := by
  intro i hi
  rw [List.getElem?_append_right (by omega)]
  simp

/-! ### Slot-count and class-info-index lemmas (for C8) -/
mutual
theorem encObjL_length (o : ObjDesc) : ∀ base,
    (encObjL base o).length = 2 * numObjs o + numStrs o := by
  cases o with
  | mk chain fs =>
    intro base
    have h := encFieldsSlots_length fs (base + 1)
    simp [encObjL, numObjs, numStrs, h]
    omega

theorem encFieldsSlots_length (fs : FieldList) : ∀ next,
    (encFieldsSlots next fs).length = 2 * fieldsObjs fs + fieldsStrs fs := by
  cases fs with
  | nil => intro next; simp [encFieldsSlots, fieldsObjs, fieldsStrs]
  | fcons k f rest =>
    intro next
    have h1 := fieldSlots_length f next
    have h2 := encFieldsSlots_length rest (next + (fieldSlots next f).length)
    rw [encFieldsSlots, List.length_append, h2, h1]
    simp only [fieldsObjs, fieldsStrs]
    omega

theorem fieldSlots_length (f : Field) : ∀ next,
    (fieldSlots next f).length = 2 * fieldObjs f + fieldStrs f := by
  cases f with
  | fi32 v => intro next; simp [fieldSlots, fieldObjs, fieldStrs]
  | fi64 v => intro next; simp [fieldSlots, fieldObjs, fieldStrs]
  | fstr s => intro next; simp [fieldSlots, fieldObjs, fieldStrs]
  | fobj o =>
    intro next
    simp [fieldSlots, fieldObjs, fieldStrs, encObjL_length o next]
end

mutual
theorem classIdxs_length (o : ObjDesc) : ∀ base,
    (classIdxs base o).length = numObjs o := by
  cases o with
  | mk chain fs =>
    intro base
    simp [classIdxs, numObjs, classIdxsFields_length fs (base + 1)]
    omega

theorem classIdxsFields_length (fs : FieldList) : ∀ next,
    (classIdxsFields next fs).length = fieldsObjs fs := by
  cases fs with
  | nil => intro next; simp [classIdxsFields, fieldsObjs]
  | fcons k f rest =>
    intro next
    simp [classIdxsFields, fieldsObjs, classIdxsField_length f next,
      classIdxsFields_length rest (next + (fieldSlots next f).length)]

theorem classIdxsField_length (f : Field) : ∀ next,
    (classIdxsField next f).length = fieldObjs f := by
  cases f with
  | fi32 v => intro next; simp [classIdxsField, fieldObjs]
  | fi64 v => intro next; simp [classIdxsField, fieldObjs]
  | fstr s => intro next; simp [classIdxsField, fieldObjs]
  | fobj o => intro next; simp [classIdxsField, fieldObjs, classIdxs_length o next]
end

mutual
theorem classIdxs_range (o : ObjDesc) : ∀ base, ∀ i ∈ classIdxs base o,
    base < i ∧ i < base + (encObjL base o).length := by
  cases o with
  | mk chain fs =>
    intro base i hi
    have hlen : (encObjL base (.mk chain fs)).length =
        (encFieldsSlots (base + 1) fs).length + 2 := by
      simp [encObjL]
    rw [hlen]
    rcases List.mem_cons.mp hi with hi | hi
    · omega
    · have h := classIdxsFields_range fs (base + 1) i hi
      omega

theorem classIdxsFields_range (fs : FieldList) : ∀ next, ∀ i ∈ classIdxsFields next fs,
    next ≤ i ∧ i < next + (encFieldsSlots next fs).length := by
  cases fs with
  | nil => intro next i hi; simp [classIdxsFields] at hi
  | fcons k f rest =>
    intro next i hi
    have hlen : (encFieldsSlots next (.fcons k f rest)).length =
        (fieldSlots next f).length +
          (encFieldsSlots (next + (fieldSlots next f).length) rest).length := by
      simp [encFieldsSlots]
    rw [hlen]
    rcases List.mem_append.mp hi with hi | hi
    · have h := classIdxsField_range f next i hi
      omega
    · have h := classIdxsFields_range rest (next + (fieldSlots next f).length) i hi
      omega

theorem classIdxsField_range (f : Field) : ∀ next, ∀ i ∈ classIdxsField next f,
    next ≤ i ∧ i < next + (fieldSlots next f).length := by
  cases f with
  | fi32 v => intro next i hi; simp [classIdxsField] at hi
  | fi64 v => intro next i hi; simp [classIdxsField] at hi
  | fstr s => intro next i hi; simp [classIdxsField] at hi
  | fobj o =>
    intro next i hi
    have h := classIdxs_range o next i hi
    rw [fieldSlots]
    omega
end

mutual
theorem classIdxs_nodup (o : ObjDesc) : ∀ base, (classIdxs base o).Nodup := by
  cases o with
  | mk chain fs =>
    intro base
    rw [classIdxs]
    refine List.nodup_cons.mpr ⟨?_, classIdxsFields_nodup fs (base + 1)⟩
    intro hmem
    have h := classIdxsFields_range fs (base + 1) _ hmem
    omega

theorem classIdxsFields_nodup (fs : FieldList) : ∀ next, (classIdxsFields next fs).Nodup := by
  cases fs with
  | nil => intro next; simp [classIdxsFields]
  | fcons k f rest =>
    intro next
    rw [classIdxsFields]
    refine List.Nodup.append (classIdxsField_nodup f next)
      (classIdxsFields_nodup rest (next + (fieldSlots next f).length)) ?_
    intro a ha1 ha2
    have h1 := classIdxsField_range f next a ha1
    have h2 := classIdxsFields_range rest (next + (fieldSlots next f).length) a ha2
    omega

theorem classIdxsField_nodup (f : Field) : ∀ next, (classIdxsField next f).Nodup := by
  cases f with
  | fi32 v => intro next; simp [classIdxsField]
  | fi64 v => intro next; simp [classIdxsField]
  | fstr s => intro next; simp [classIdxsField]
  | fobj o => intro next; exact classIdxs_nodup o next
end

mutual
theorem classIdxs_content (o : ObjDesc) : ∀ base (T : List PlistValue),
    segAt T base (encObjL base o) → ∀ i ∈ classIdxs base o,
    ∃ c2, T[i]? = some (.dictionary (classInfoDict c2)) := by
  cases o with
  | mk chain fs =>
    intro base T hseg i hi
    rw [encObjL] at hseg
    obtain ⟨hrec, hrest⟩ := segAt_cons hseg
    obtain ⟨hslots, hci⟩ := segAt_append hrest
    rcases List.mem_cons.mp hi with hi | hi
    · refine ⟨chain, ?_⟩
      have h0 := hci 0 (by simp)
      rw [hi]
      simpa using h0
    · exact classIdxsFields_content fs (base + 1) T hslots i hi

theorem classIdxsFields_content (fs : FieldList) : ∀ next (T : List PlistValue),
    segAt T next (encFieldsSlots next fs) → ∀ i ∈ classIdxsFields next fs,
    ∃ c2, T[i]? = some (.dictionary (classInfoDict c2)) := by
  cases fs with
  | nil => intro next T hseg i hi; simp [classIdxsFields] at hi
  | fcons k f rest =>
    intro next T hseg i hi
    rw [encFieldsSlots] at hseg
    obtain ⟨h1, h2⟩ := segAt_append hseg
    rcases List.mem_append.mp hi with hi | hi
    · exact classIdxsField_content f next T h1 i hi
    · exact classIdxsFields_content rest (next + (fieldSlots next f).length) T h2 i hi

theorem classIdxsField_content (f : Field) : ∀ next (T : List PlistValue),
    segAt T next (fieldSlots next f) → ∀ i ∈ classIdxsField next f,
    ∃ c2, T[i]? = some (.dictionary (classInfoDict c2)) := by
  cases f with
  | fi32 v => intro next T hseg i hi; simp [classIdxsField] at hi
  | fi64 v => intro next T hseg i hi; simp [classIdxsField] at hi
  | fstr s => intro next T hseg i hi; simp [classIdxsField] at hi
  | fobj o => intro next T hseg i hi; exact classIdxs_content o next T hseg i hi
end

/-- C8: every successful encode seals an envelope with archiver identifier
`"NSKeyedArchiver"`, top mapping exactly `{"root": root_index}` and version
`100000`; each encoded application object occupies exactly two table slots
(its object record and its own class-info record, with strings in extra
slots), and the class-info records of distinct objects sit at pairwise
distinct indices — one fresh record per object — each holding a class-info
dictionary. -/
theorem c8_envelope_and_slots (o : ObjDesc) (env : ArchiveDict) (a : Archiver) (r : Nat)
    (he : to_archive_dict o = some env) :
    (a.seal r).archiver_class_name = "NSKeyedArchiver" ∧
    (a.seal r).top_objects = [("root", r)] ∧
    (a.seal r).version = 100000 ∧
    env.top_objects = [("root", 1)] ∧
    env.objects.length = 1 + (2 * numObjs o + numStrs o) ∧
    (classIdxs 1 o).length = numObjs o ∧
    (classIdxs 1 o).Nodup ∧
    (∀ i ∈ classIdxs 1 o, ∃ c2, env.objects[i]? = some (.dictionary (classInfoDict c2))) := by
  simp only [to_archive_dict, encodeNewObject_eq, Archiver.new, Archiver.seal] at he
  cases he
  refine ⟨rfl, rfl, rfl, rfl, ?_, classIdxs_length o 1, classIdxs_nodup o 1, ?_⟩
  · simp [encObjL_length o 1]
    omega
  · intro i hi
    refine classIdxs_content o 1 _ ?_ i hi
    have h := segAt_append_self [PlistValue.string "$null"] (encObjL 1 o)
    simpa using h

/-- Witness for C8: a concrete archive with two objects of the same class
has table length `1 + 2*2 + 0 = 5` and two distinct class-info slots. -/
theorem c8_envelope_and_slots_witness :
    ∃ env, to_archive_dict
        (.mk (.derived "B" (.root "NSObject"))
          (.fcons "o" (.fobj (.mk (.derived "B" (.root "NSObject")) .nil)) .nil)) =
        some env ∧
      env.top_objects = [("root", 1)] ∧
      env.objects.length = 1 + (2 * numObjs (.mk (.derived "B" (.root "NSObject"))
        (.fcons "o" (.fobj (.mk (.derived "B" (.root "NSObject")) .nil)) .nil)) +
        numStrs (.mk (.derived "B" (.root "NSObject"))
          (.fcons "o" (.fobj (.mk (.derived "B" (.root "NSObject")) .nil)) .nil))) ∧
      (classIdxs 1 (.mk (.derived "B" (.root "NSObject"))
        (.fcons "o" (.fobj (.mk (.derived "B" (.root "NSObject")) .nil)) .nil))).Nodup := by
  obtain ⟨h1, h2, h3, h4, h5, h6, h7, h8⟩ := c8_envelope_and_slots
    (.mk (.derived "B" (.root "NSObject"))
      (.fcons "o" (.fobj (.mk (.derived "B" (.root "NSObject")) .nil)) .nil))
    _ Archiver.new 1 rfl
  exact ⟨_, rfl, h4, h5, h7⟩

/-! ### Readback lemmas (for C1) -/
theorem classInfoDict_classname (chain : ClassChain) :
    dictGet (classInfoDict chain) "$classname" = some (.string (chainHead chain)) := by
  unfold classInfoDict
  exact dictGet_insert_self _ _ _

theorem encFieldsDict_frame (fs : FieldList) : ∀ (next : Nat) (D : PDict) (k : String),
    k ∉ keysOf fs → dictGet (encFieldsDict next D fs) k = dictGet D k := by
  cases fs with
  | nil => intro next D k hk; rfl
  | fcons k2 f rest =>
    intro next D k hk
    simp only [keysOf, List.mem_cons] at hk
    push_neg at hk
    rw [encFieldsDict, encFieldsDict_frame rest _ _ _ hk.2,
      dictGet_insert_ne _ _ (Ne.symm hk.1)]

theorem matchFields_insert (fs : FieldList) : ∀ (next : Nat) (D : PDict) (u : PlistValue),
    (keysOf fs).Nodup → "$class" ∉ keysOf fs →
    matchFields (dictInsert (encFieldsDict next D fs) "$class" u) next fs := by
  cases fs with
  | nil => intro next D u h1 h2; trivial
  | fcons k f rest =>
    intro next D u h1 h2
    simp only [keysOf, List.mem_cons] at h2
    push_neg at h2
    have hnd := List.nodup_cons.mp h1
    refine ⟨?_, ?_⟩
    · rw [dictGet_insert_ne _ _ h2.1, encFieldsDict,
        encFieldsDict_frame rest _ _ _ hnd.1]
      exact dictGet_insert_self _ _ _
    · rw [encFieldsDict]
      exact matchFields_insert rest _ _ u hnd.2 h2.2

theorem toI64_i64_range (v : Int) : -2 ^ 63 ≤ toI64 v ∧ toI64 v < 2 ^ 63 :=
  ⟨toI64_lb v, toI64_ub v⟩

theorem toI32_i64_range (v : Int) : -2 ^ 63 ≤ toI32 v ∧ toI32 v < 2 ^ 63 := by
  have h1 := toI32_lb v
  have h2 := toI32_ub v
  have e1 : -(2:Int) ^ 63 ≤ -2 ^ 31 := by norm_num
  have e2 : (2:Int) ^ 31 ≤ 2 ^ 63 := by norm_num
  exact ⟨by omega, by omega⟩

theorem unarchive_seal {ω : Type} (reg : List (String × UnFn ω))
    (objs : List PlistValue) (r : Nat) (hr : r < objs.length) :
    unarchive_root_object reg
      { archiver_class_name := keyedArchiverClassName, objects := objs,
        top_objects := [("root", r)], version := 100000 } =
    decode_active_object reg { objects := objs, active_object := some r } := by
  simp [unarchive_root_object, assocGet, show ¬ objs.length ≤ r from by omega]

theorem assocGet_map_chainHead {α : Type} (g : ClassDef → α) (env : List ClassDef)
    (name : String) :
    assocGet (env.map (fun cd => (chainHead cd.chain, g cd))) name =
      (lookupEnv env name).map g := by
  induction env with
  | nil => rfl
  | cons cd rest ih =>
    by_cases h : chainHead cd.chain = name <;> simp [assocGet, lookupEnv, h, ih]

theorem assocGet_canonReg (env : List ClassDef) (n : Nat) (name : String) :
    assocGet (canonReg env n) name = (lookupEnv env name).map (canonFn env n) :=
  assocGet_map_chainHead _ env name

theorem canonFn_succ (env : List ClassDef) (n : Nat) (cd : ClassDef) (u : UnState) :
    canonFn env (n + 1) cd u =
      (buildFields (canonReg env n) u cd.fields).map (fun fs => .mk cd.chain fs) := rfl

mutual
theorem canon_decodeActive (o : ObjDesc) : ∀ (env : List ClassDef) (T : List PlistValue)
    (base fuel : Nat),
    conformsObj env o = true → goodObj o = true → intsObj o = true →
    depthObj o < fuel → segAt T base (encObjL base o) →
    decode_active_object (canonReg env fuel) { objects := T, active_object := some base } =
      some (.ok o) := by
  cases o with
  | mk chain fs =>
    intro env T base fuel hconf hg hints hfuel hseg
    cases fuel with
    | zero => omega
    | succ m =>
      simp only [conformsObj] at hconf
      cases hlk : lookupEnv env (chainHead chain) with
      | none => rw [hlk] at hconf; simp at hconf
      | some cd =>
        rw [hlk] at hconf
        simp only [Bool.and_eq_true, decide_eq_true_eq] at hconf
        obtain ⟨hchain, hcfs⟩ := hconf
        simp only [goodObj, Bool.and_eq_true, decide_eq_true_eq] at hg
        simp only [intsObj] at hints
        have hdep : depthFields fs ≤ m := by
          simp only [depthObj] at hfuel
          omega
        rw [encObjL] at hseg
        obtain ⟨hrec, hrest⟩ := segAt_cons hseg
        obtain ⟨hslots, hci⟩ := segAt_append hrest
        have hci0 : T[base + 1 + (encFieldsSlots (base + 1) fs).length]? =
            some (.dictionary (classInfoDict chain)) := by
          have h0 := hci 0 (by simp)
          simpa using h0
        have hlt := lt_of_getElem?_eq_some hci0
        have hmf : matchFields
            (dictInsert (encFieldsDict (base + 1) [] fs) "$class"
              (.uid (base + 1 + (encFieldsSlots (base + 1) fs).length)))
            (base + 1) fs :=
          matchFields_insert fs (base + 1) [] _ hg.1.1 hg.1.2
        have hbf := canon_buildFields fs env cd.fields T base (base + 1) m _ hcfs hg.2
          hints hdep hrec hmf hslots
        have hfn : canonFn env (m + 1) cd { objects := T, active_object := some base } =
            some (.mk chain fs) := by
          rw [canonFn_succ, hbf]
          simp [hchain]
        simp only [decode_active_object, ensureActiveObject, hrec, dictGet_insert_self,
          Option.some_bind, asUid, hci0, asDictionary, classInfoDict_classname, asString,
          show ¬ T.length ≤ base + 1 + (encFieldsSlots (base + 1) fs).length from by omega,
          if_false, assocGet_canonReg, hlk, Option.map_some', hfn]

theorem canon_buildFields (fs : FieldList) : ∀ (env : List ClassDef)
    (shapes : List (String × FShape)) (T : List PlistValue) (pIdx next m : Nat) (Dp : PDict),
    conformsFields env shapes fs = true → goodFields fs = true → intsFields fs = true →
    depthFields fs ≤ m →
    T[pIdx]? = some (.dictionary Dp) → matchFields Dp next fs →
    segAt T next (encFieldsSlots next fs) →
    buildFields (canonReg env m) { objects := T, active_object := some pIdx } shapes =
      some fs := by
  cases fs with
  | nil =>
    intro env shapes T pIdx next m Dp hconf hg hints hd hDp hmf hseg
    cases shapes with
    | nil => rfl
    | cons s srest =>
      obtain ⟨k, sh⟩ := s
      simp [conformsFields] at hconf
  | fcons k2 f frest =>
    intro env shapes T pIdx next m Dp hconf hg hints hd hDp hmf hseg
    cases shapes with
    | nil => simp [conformsFields] at hconf
    | cons s srest =>
      obtain ⟨k, sh⟩ := s
      simp only [conformsFields, Bool.and_eq_true, decide_eq_true_eq] at hconf
      obtain ⟨⟨hkeq, hcf⟩, hcrest⟩ := hconf
      subst hkeq
      simp only [goodFields, Bool.and_eq_true] at hg
      simp only [intsFields, Bool.and_eq_true] at hints
      simp only [depthFields] at hd
      have hd1 : depthField f ≤ m := le_trans (Nat.le_max_left _ _) hd
      have hd2 : depthFields frest ≤ m := le_trans (Nat.le_max_right _ _) hd
      obtain ⟨hget, hmf2⟩ := hmf
      rw [encFieldsSlots] at hseg
      obtain ⟨hs1, hs2⟩ := segAt_append hseg
      have h1 := canon_buildField f env sh T pIdx next m Dp k hcf hg.1 hints.1 hd1
        hDp hget hs1
      have h2 := canon_buildFields frest env srest T pIdx
        (next + (fieldSlots next f).length) m Dp hcrest hg.2 hints.2 hd2 hDp hmf2 hs2
      simp only [buildFields, h1, h2, Option.some_bind, Option.map_some']

theorem canon_buildField (f : Field) : ∀ (env : List ClassDef) (sh : FShape)
    (T : List PlistValue) (pIdx next m : Nat) (Dp : PDict) (k : String),
    conformsField env sh f = true → goodField f = true → intsField f = true →
    depthField f ≤ m →
    T[pIdx]? = some (.dictionary Dp) → dictGet Dp k = some (fieldVal next f) →
    segAt T next (fieldSlots next f) →
    buildField (canonReg env m) { objects := T, active_object := some pIdx } k sh =
      some f := by
  cases f with
  | fi32 v =>
    intro env sh T pIdx next m Dp k hconf hg hints hd hDp hget hseg
    cases sh with
    | si32 =>
      have hE : ensureActiveObject { objects := T, active_object := some pIdx } =
          some (.dictionary Dp) := by
        simp [ensureActiveObject, hDp]
      simp only [fieldVal] at hget
      simp only [intsField, decide_eq_true_eq] at hints
      have hr := toI32_i64_range v
      simp only [buildField, decode_i32, decode_i64, hE, hget, Option.some_bind,
        asSignedInteger_integer hr.1 hr.2, Option.getD_some]
      simp [toI32_idem, toI32_eq_self hints.1 hints.2]
    | si64 => simp [conformsField] at hconf
    | sstr => simp [conformsField] at hconf
    | sobj c => simp [conformsField] at hconf
  | fi64 v =>
    intro env sh T pIdx next m Dp k hconf hg hints hd hDp hget hseg
    cases sh with
    | si64 =>
      have hE : ensureActiveObject { objects := T, active_object := some pIdx } =
          some (.dictionary Dp) := by
        simp [ensureActiveObject, hDp]
      simp only [fieldVal] at hget
      simp only [intsField, decide_eq_true_eq] at hints
      have hr := toI64_i64_range v
      simp only [buildField, decode_i64, hE, hget, Option.some_bind,
        asSignedInteger_integer hr.1 hr.2, Option.getD_some]
      simp [toI64_eq_self hints.1 hints.2]
    | si32 => simp [conformsField] at hconf
    | sstr => simp [conformsField] at hconf
    | sobj c => simp [conformsField] at hconf
  | fstr str =>
    intro env sh T pIdx next m Dp k hconf hg hints hd hDp hget hseg
    cases sh with
    | sstr =>
      have hE : ensureActiveObject { objects := T, active_object := some pIdx } =
          some (.dictionary Dp) := by
        simp [ensureActiveObject, hDp]
      simp only [fieldVal] at hget
      have hstr : T[next]? = some (.string str) := by
        have h0 := hseg 0 (by simp [fieldSlots])
        simpa [fieldSlots] using h0
      have hlt := lt_of_getElem?_eq_some hstr
      simp only [buildField, decode_string, hE, hget, Option.some_bind, asUid,
        show ¬ T.length ≤ next from by omega, if_false, hstr, asString]
      simp
    | si32 => simp [conformsField] at hconf
    | si64 => simp [conformsField] at hconf
    | sobj c => simp [conformsField] at hconf
  | fobj w =>
    intro env sh T pIdx next m Dp k hconf hg hints hd hDp hget hseg
    cases sh with
    | sobj c =>
      simp only [conformsField, Bool.and_eq_true, decide_eq_true_eq] at hconf
      obtain ⟨hcn, hcw⟩ := hconf
      simp only [goodField] at hg
      simp only [intsField] at hints
      simp only [depthField] at hd
      simp only [fieldVal] at hget
      simp only [fieldSlots] at hseg
      have hE : ensureActiveObject { objects := T, active_object := some pIdx } =
          some (.dictionary Dp) := by
        simp [ensureActiveObject, hDp]
      have hrec0 : ∃ x, T[next]? = some x := by
        cases ho : w with
        | mk chain2 fs2 =>
          have h0 := hseg 0 (by rw [ho]; exact encObjL_length_pos next _)
          rw [ho] at h0
          rw [encObjL] at h0
          exact ⟨_, by simpa using h0⟩
      obtain ⟨x, hx⟩ := hrec0
      have hlt := lt_of_getElem?_eq_some hx
      have hda := canon_decodeActive w env T next m hcw hg hints (by omega) hseg
      simp only [buildField, decode_object, hE, hget, Option.some_bind, asUid,
        show ¬ T.length ≤ next from by omega, if_false, hda]
      simp [Except.toOption, hcn]
    | si32 => simp [conformsField] at hconf
    | si64 => simp [conformsField] at hconf
    | sstr => simp [conformsField] at hconf
end

/-- C1 (corrected): round trip through the archive.  For every value `v`
described by `o` whose class family `env` is fully registered (every class
occurring anywhere in `v`, not only `v`'s own ancestor chain), whose `encode`
writes each key at most once per object and never the reserved key
`"$class"`, and whose integer fields are in range of their machine type,
decoding the archive produced by encoding `v` with the canonical
reconstruction functions of the family succeeds and yields `v` itself on
every encoded field (the typed downcast of each nested object succeeds). -/
theorem c1_round_trip (env : List ClassDef) (o : ObjDesc) (envd : ArchiveDict) (fuel : Nat)
    (hconf : conformsObj env o = true) (hgood : goodObj o = true)
    (hints : intsObj o = true) (hfuel : depthObj o < fuel)
    (he : to_archive_dict o = some envd) :
    unarchive_root_object (canonReg env fuel) envd = some (.ok o) := by
  have hdict : to_archive_dict o =
      some ((Archiver.mk ([PlistValue.string "$null"] ++ encObjL 1 o) none).seal 1) := by
    show (match encodeNewObject Archiver.new o with
          | none => none
          | some (a, r) => some (a.seal r)) = _
    rw [encodeNewObject_eq o Archiver.new]
    rfl
  rw [hdict] at he
  have he2 := Option.some.inj he
  subst he2
  have hr : 1 < ([PlistValue.string "$null"] ++ encObjL 1 o).length := by
    have := encObjL_length_pos 1 o
    simp only [List.length_append, List.length_cons, List.length_nil]
    omega
  exact (unarchive_seal (canonReg env fuel) ([PlistValue.string "$null"] ++ encObjL 1 o) 1
      hr).trans
    (canon_decodeActive o env ([PlistValue.string "$null"] ++ encObjL 1 o) 1 fuel hconf hgood
      hints hfuel (segAt_append_self [PlistValue.string "$null"] (encObjL 1 o)))

/-- Witness for C1 at a concrete two-class family: a `RCDPerson` holding an
`i32` and a nested `RCDDog` with a string field round-trips exactly. -/
theorem c1_round_trip_witness :
    ∃ envd, to_archive_dict personW = some envd ∧
      unarchive_root_object (canonReg envW 2) envd = some (.ok personW) :=
  ⟨_, rfl, c1_round_trip envW personW _ 2 rfl rfl rfl (by decide) rfl⟩

/-- Counterexample for C1 as stated: three archives that break the
unamended round-trip claim while keeping the value's own ancestor chain
registered.  (1) A field encoded under the reserved key `"$class"` is
overwritten by the class reference, so it decodes as `0`, not `7`.
(2) A key written twice keeps only the last value, so the first read
differs from what was encoded.  (3) A nested object of an unregistered
class makes the whole decode fail even though the root value's entire
ancestor chain is registered. -/
theorem c1_counterexample :
    ((assocGet (canonReg envDollar 1) (chainHead descDollar.classesOf)).isSome = true ∧
      ∃ envd, to_archive_dict descDollar = some envd ∧
        unarchive_root_object (canonReg envDollar 1) envd ≠ some (.ok descDollar)) ∧
    ((assocGet (canonReg envDup 1) (chainHead descDup.classesOf)).isSome = true ∧
      ∃ envd, to_archive_dict descDup = some envd ∧
        unarchive_root_object (canonReg envDup 1) envd ≠ some (.ok descDup)) ∧
    ((assocGet (canonReg envNest 2) (chainHead descNest.classesOf)).isSome = true ∧
      ∃ envd, to_archive_dict descNest = some envd ∧
        unarchive_root_object (canonReg envNest 2) envd = some (.error .MalformedObject)) := by
  refine ⟨⟨rfl, ArchiveDict.mk keyedArchiverClassName
      ([PlistValue.string "$null"] ++ encObjL 1 descDollar) [("root", 1)] 100000, rfl, ?_⟩,
    ⟨rfl, ArchiveDict.mk keyedArchiverClassName
      ([PlistValue.string "$null"] ++ encObjL 1 descDup) [("root", 1)] 100000, rfl, ?_⟩,
    ⟨rfl, ArchiveDict.mk keyedArchiverClassName
      ([PlistValue.string "$null"] ++ encObjL 1 descNest) [("root", 1)] 100000, rfl, rfl⟩⟩
  · intro h
    rw [show unarchive_root_object (canonReg envDollar 1)
        (ArchiveDict.mk keyedArchiverClassName
          ([PlistValue.string "$null"] ++ encObjL 1 descDollar) [("root", 1)] 100000) =
        some (.ok (.mk (.root "A") (.fcons "$class" (.fi64 0) .nil))) from rfl] at h
    simp [descDollar] at h
  · intro h
    rw [show unarchive_root_object (canonReg envDup 1)
        (ArchiveDict.mk keyedArchiverClassName
          ([PlistValue.string "$null"] ++ encObjL 1 descDup) [("root", 1)] 100000) =
        some (.ok (.mk (.root "A") (.fcons "k" (.fi64 2) (.fcons "k" (.fi64 2) .nil)))) from
        rfl] at h
    simp [descDup] at h

/-- Counterexample for C7 as stated: for the chain `derived "A" 1 (root "A" 2)`
— a type sharing its class name with its ancestor — registration maps `"A"`
to the ancestor's reconstruction function `2`, not the type's own function
`1`: the ancestor chain is registered first and the first registration
wins, so without the head-freshness proviso the claim is false. -/
theorem c7_shared_name_counterexample :
    assocGet (register_type ([] : List (String × Nat)) (.derived "A" 1 (.root "A" 2))) "A" ≠
      some (regFn (.derived "A" 1 (.root "A" 2))) ∧
    assocGet (register_type ([] : List (String × Nat)) (.derived "A" 1 (.root "A" 2))) "A" =
      some 2 :=
  ⟨by decide, by decide⟩

end NSCoder
